import Mathlib

set_option maxHeartbeats 1000000

/-!
Shallow embedding of the PHP taint-slice tool
(`function_call_chain_slicer.py`): function locator, call extractor,
source/sink scanner, include resolver and the cross-file taint-path /
call-chain assembler, together with proofs of the spec's claims.

Files are modelled by their text: a readable file is `some` of its raw
content (for the include resolver, which reads the whole file) or of its
line list (for the per-line components, mirroring `readlines()`), and an
unreadable file is `none`.  Regex matching of the fixed patterns in the
source is implemented directly over character lists with the exact
semantics of `re.search` / `re.finditer` / `re.findall` on those
patterns (anchored scan, leftmost non-overlapping matches, greedy
repetition, IGNORECASE where the source sets it).
-/

namespace TaintSlice

/-- ASCII whitespace, the characters matched by the regex class `\s`
for the inputs considered here. -/
def isSpc (c : Char) : Bool :=
  c == ' ' || c == '\t' || c == '\n' || c == '\r' || c == '\x0b' || c == '\x0c'

/-- First character of an identifier: `[a-zA-Z_]`. -/
def isIdentStart (c : Char) : Bool :=
  (('a' ≤ c && c ≤ 'z') || ('A' ≤ c && c ≤ 'Z')) || c == '_'

/-- Continuation character of an identifier: `[a-zA-Z0-9_]`. -/
def isIdentCont (c : Char) : Bool :=
  (('a' ≤ c && c ≤ 'z') || ('A' ≤ c && c ≤ 'Z')) || ('0' ≤ c && c ≤ '9') || c == '_'

/-- Case-insensitive literal match: `matchCI pat cs` returns the rest of
`cs` after the literal `pat` (given in lower case) when `cs` starts with
it up to ASCII case. -/
def matchCI : List Char → List Char → Option (List Char)
  | [], cs => some cs
  | _ :: _, [] => none
  | p :: ps, c :: cs => if c.toLower = p then matchCI ps cs else none

/-- Python `str.strip()` on a character list. -/
def stripChars (l : List Char) : List Char :=
  ((l.dropWhile isSpc).reverse.dropWhile isSpc).reverse

/-- Python `str.strip()`. -/
def pstrip (s : String) : String :=
  (stripChars s.data).asString

/-- Python `readlines()`: split the raw text after every newline,
keeping the newline characters. -/
def readLinesAux : List Char → List Char → List (List Char)
  | [], acc => if acc.isEmpty then [] else [acc.reverse]
  | '\n' :: r, acc => ('\n' :: acc).reverse :: readLinesAux r []
  | c :: r, acc => readLinesAux r (c :: acc)

/-- Python `readlines()` on a whole file content. -/
def pyReadLines (s : String) : List String :=
  (readLinesAux s.data []).map List.asString

/-- The optional visibility qualifier `(?:public|private|protected)?` of
the function-definition regex (IGNORECASE): consume it when present. -/
def dropVis (cs : List Char) : List Char :=
  match matchCI "public".data cs with
  | some r => r
  | none =>
    match matchCI "private".data cs with
    | some r => r
    | none =>
      match matchCI "protected".data cs with
      | some r => r
      | none => cs

/-- Greedy identifier at the head of the input:
`([a-zA-Z_][a-zA-Z0-9_]*)` followed by `\s*\(`; returns the captured
name and the input after the opening parenthesis. -/
def identCall : List Char → Option (String × List Char)
  | [] => none
  | c :: r =>
    if isIdentStart c then
      match (r.dropWhile isIdentCont).dropWhile isSpc with
      | d :: rest => if d = '(' then some ((c :: r.takeWhile isIdentCont).asString, rest) else none
      | [] => none
    else none

/-- The function-definition recognizer of the source,
`^\s*(?:public|private|protected)?\s*function\s+([a-zA-Z_][a-zA-Z0-9_]*)\s*\(`
with IGNORECASE, applied by `re.search` (hence anchored by `^`): returns
the captured function name when the line matches. -/
def funcDefName (s : String) : Option String :=
  let cs := (dropVis (s.data.dropWhile isSpc)).dropWhile isSpc
  match matchCI "function".data cs with
  | none => none
  | some r =>
    match r with
    | c :: r2 =>
      if isSpc c then
        match identCall (r2.dropWhile isSpc) with
        | some (nm, _) => some nm
        | none => none
      else none
    | [] => none

/-- Loop of `find_function_at_line`: `i` is the 1-based number of the
next line, `cur` the most recently recognized definition (name, start). -/
def findFunGo (line : Int) (total : Int) :
    List String → Int → Option (String × Int) → String × Int × Int
  | [], _, cur =>
    match cur with
    | some (f, s) => if s ≤ line ∧ line ≤ total then (f, s, total) else ("global", 1, total)
    | none => ("global", 1, total)
  | l :: rest, i, cur =>
    match funcDefName l with
    | some nm =>
      match cur with
      | some (f, s) =>
        if s ≤ line ∧ line ≤ i - 1 then (f, s, i - 1)
        else findFunGo line total rest (i + 1) (some (nm, i))
      | none => findFunGo line total rest (i + 1) (some (nm, i))
    | none => findFunGo line total rest (i + 1) cur

/-- `find_function_at_line` on a readable file given as its line list:
returns (function name, start line, end line). -/
def find_function_at_line (lines : List String) (line : Int) : String × Int × Int :=
  findFunGo line (lines.length : Int) lines 1 none

/-- The recognized definitions of a line list starting at line number
`i`, as (1-based line, name) pairs in file order. -/
def defsFrom : List String → Int → List (Int × String)
  | [], _ => []
  | l :: r, i =>
    match funcDefName l with
    | some nm => (i, nm) :: defsFrom r (i + 1)
    | none => defsFrom r (i + 1)

/-- The recognized definitions of a file. -/
def defsOf (lines : List String) : List (Int × String) :=
  defsFrom lines 1

/-- One step of `re.finditer` scanning: try a single match at every
position from left to right, continuing after the end of each match
(non-overlapping) and advancing one character on failure.  The fuel is
the length of the scanned text; every successful single match consumes
at least one character, so the fuel never runs out before the text. -/
def scanGo (try1 : List Char → Option (String × List Char)) :
    Nat → List Char → List String
  | _, [] => []
  | 0, _ :: _ => []
  | fuel + 1, c :: r =>
    match try1 (c :: r) with
    | some (nm, rest) => nm :: scanGo try1 fuel rest
    | none => scanGo try1 fuel r

/-- All captures of a regex over a text, in `re.finditer` /
`re.findall` order. -/
def scanAll (try1 : List Char → Option (String × List Char)) (l : List Char) : List String :=
  scanGo try1 l.length l

/-- Single match of `([a-zA-Z_][a-zA-Z0-9_]*)\s*\(` at the current
position (the free-call pattern). -/
def tryFree : List Char → Option (String × List Char) :=
  identCall

/-- Single match of `\$([a-zA-Z_][a-zA-Z0-9_]*)\s*\(` at the current
position (the variable-call pattern). -/
def tryVar : List Char → Option (String × List Char)
  | c :: r => if c = '$' then identCall r else none
  | [] => none

/-- Single match of `->([a-zA-Z_][a-zA-Z0-9_]*)\s*\(` at the current
position (the member-call pattern). -/
def tryMember : List Char → Option (String × List Char)
  | c :: d :: r => if c = '-' ∧ d = '>' then identCall r else none
  | _ => none

/-- Single match of `::([a-zA-Z_][a-zA-Z0-9_]*)\s*\(` at the current
position (the static-call pattern). -/
def tryStatic : List Char → Option (String × List Char)
  | c :: d :: r => if c = ':' ∧ d = ':' then identCall r else none
  | _ => none

/-- The four call-shape scanners, in the order the source lists them. -/
def callScanners : List (List Char → Option (String × List Char)) :=
  [tryFree, tryVar, tryMember, tryStatic]

/-- The keyword denylist of `extract_function_calls`. -/
def denylist : List String :=
  ["if", "while", "for", "foreach", "switch", "echo", "print"]

/-- A call site as produced by `extract_function_calls`. -/
structure CallSite where
  function : String
  line : Nat
  code : String
deriving DecidableEq, Repr

/-- `extract_function_calls` on a readable file given as its line list:
for each line, each pattern's matches in order, dropping denylisted
names. -/
def extract_function_calls (lines : List String) : List CallSite :=
  lines.enum.flatMap fun p =>
    callScanners.flatMap fun scan =>
      ((scanAll scan p.2.data).filter (fun nm => ¬ denylist.contains nm)).map
        fun nm => ⟨nm, p.1 + 1, pstrip p.2⟩

/-- A pattern match of the single-file scanner `analyze_sources_sinks`:
(1-based line, stripped line text, the pattern that matched). -/
structure FileMatch where
  line : Nat
  code : String
  pattern : String
deriving DecidableEq, Repr

/-- A pattern match of the project-wide scanner, which also records the
(root-relative) file. -/
structure ProjMatch where
  line : Nat
  code : String
  pattern : String
  file : String
deriving DecidableEq, Repr

/-- `analyze_sources_sinks` on a readable file given as its line list.
Patterns are the configured regex strings; `search` is the semantics of
`re.search` applied to them (they are opaque input to the engine). -/
def analyze_sources_sinks (search : String → String → Bool) (lines : List String)
    (sources sinks : List String) : List FileMatch × List FileMatch :=
  (lines.enum.flatMap fun p =>
    (sources.filter fun pat => search pat p.2).map fun pat =>
      (⟨p.1 + 1, pstrip p.2, pat⟩ : FileMatch),
   lines.enum.flatMap fun p =>
    (sinks.filter fun pat => search pat p.2).map fun pat =>
      (⟨p.1 + 1, pstrip p.2, pat⟩ : FileMatch))

/-- A file of the project tree: root-relative path and its raw content,
`none` when the file cannot be read. -/
structure PFile where
  path : String
  content : Option String
deriving DecidableEq, Repr

/-- Python `path.endswith('.php')` (case-sensitive). -/
def endsPhp (s : String) : Bool :=
  match s.data.reverse with
  | 'p' :: 'h' :: 'p' :: '.' :: _ => true
  | _ => false

/-- The files the project walk visits, in walk order. -/
def phpFiles (proj : List PFile) : List PFile :=
  proj.filter fun f => endsPhp f.path

/-- The per-file source (or sink) matches of the project-wide scan. -/
def projMatchesOf (search : String → String → Bool) (path : String) (lines : List String)
    (pats : List String) : List ProjMatch :=
  lines.enum.flatMap fun p =>
    (pats.filter fun pat => search pat p.2).map fun pat =>
      (⟨p.1 + 1, pstrip p.2, pat, path⟩ : ProjMatch)

/-- `analyze_sources_sinks_in_project`: walk all `.php` files, skip the
unreadable ones, and record per-file match lists, keeping only files
with at least one match (sparse mappings, in walk order). -/
def analyze_sources_sinks_in_project (search : String → String → Bool) (proj : List PFile)
    (sources sinks : List String) :
    List (String × List ProjMatch) × List (String × List ProjMatch) :=
  ((phpFiles proj).filterMap fun f =>
    match f.content with
    | none => none
    | some raw =>
      let fs := projMatchesOf search f.path (pyReadLines raw) sources
      if fs.isEmpty then none else some (f.path, fs),
   (phpFiles proj).filterMap fun f =>
    match f.content with
    | none => none
    | some raw =>
      let fk := projMatchesOf search f.path (pyReadLines raw) sinks
      if fk.isEmpty then none else some (f.path, fk))

/-- Association-list lookup modelling a Python dict lookup (keys are
unique in every dict the source builds). -/
def lookupA {α : Type} (m : List (String × α)) (k : String) : Option α :=
  (m.find? fun e => e.1 == k).map (·.2)

/-- Quote characters, the class of the regex fragment that matches a
single or double quote. -/
def isQuote (c : Char) : Bool :=
  c == Char.ofNat 39 || c == '"'

/-- The character class `[a-zA-Z0-9_\-\.\/]` of the bare include
pattern. -/
def isBareChar (c : Char) : Bool :=
  isIdentCont c || c == '-' || c == '.' || c == '/'

/-- Single match of an include pattern of the shape with parentheses and
quotes, for the given keyword (IGNORECASE). -/
def tryQuotedParen (kw : String) (l : List Char) : Option (String × List Char) :=
  match matchCI kw.data l with
  | none => none
  | some r1 =>
    match r1.dropWhile isSpc with
    | '(' :: r3 =>
      match r3.dropWhile isSpc with
      | q :: r5 =>
        if isQuote q then
          match r5.dropWhile (fun c => ¬ isQuote c) with
          | _ :: r6 =>
            if (r5.takeWhile (fun c => ¬ isQuote c)).isEmpty then none
            else
              match r6.dropWhile isSpc with
              | ')' :: r8 => some ((r5.takeWhile (fun c => ¬ isQuote c)).asString, r8)
              | _ => none
          | [] => none
        else none
      | [] => none
    | _ => none

/-- Single match of an include pattern of the shape without parentheses
but with quotes, for the given keyword (IGNORECASE). -/
def tryQuotedBare (kw : String) (l : List Char) : Option (String × List Char) :=
  match matchCI kw.data l with
  | some (c :: r1) =>
    if isSpc c then
      match r1.dropWhile isSpc with
      | q :: r5 =>
        if isQuote q then
          match r5.dropWhile (fun c => ¬ isQuote c) with
          | _ :: r6 =>
            if (r5.takeWhile (fun c => ¬ isQuote c)).isEmpty then none
            else some ((r5.takeWhile (fun c => ¬ isQuote c)).asString, r6)
          | [] => none
        else none
      | [] => none
    else none
  | _ => none

/-- Whether the bare-path character run `R` carries a `.php` (matched
case-insensitively, as `re.IGNORECASE` applies) starting at offset `j`. -/
def sliceIsPhpCI (R : List Char) (j : Nat) : Bool :=
  match R.drop j with
  | '.' :: p1 :: p2 :: p3 :: _ => p1.toLower == 'p' && p2.toLower == 'h' && p3.toLower == 'p'
  | _ => false

/-- Length of the greedy capture of `([a-zA-Z0-9_\-\.\/]+\.php)` inside
the maximal class run `R`: the backtracking `+` settles on the largest
split with at least one class character before a literal `.php`. -/
def bareGroupLen (R : List Char) : Option Nat :=
  (((List.range R.length).filter fun j => decide (1 ≤ j) && sliceIsPhpCI R j).getLast?).map (· + 4)

/-- Single match of the bare include pattern
`K\s+([a-zA-Z0-9_\-\.\/]+\.php)` for the given keyword (IGNORECASE). -/
def tryBarePath (kw : String) (l : List Char) : Option (String × List Char) :=
  match matchCI kw.data l with
  | some (c :: r1) =>
    if isSpc c then
      let r2 := r1.dropWhile isSpc
      let R := r2.takeWhile isBareChar
      match bareGroupLen R with
      | some n => some ((R.take n).asString, R.drop n ++ r2.dropWhile isBareChar)
      | none => none
    else none
  | _ => none

/-- The twelve include recognizer patterns of the source, in order. -/
def includeTries : List (List Char → Option (String × List Char)) :=
  [tryQuotedParen "include", tryQuotedParen "include_once",
   tryQuotedParen "require", tryQuotedParen "require_once",
   tryQuotedBare "include", tryQuotedBare "include_once",
   tryQuotedBare "require", tryQuotedBare "require_once",
   tryBarePath "include", tryBarePath "include_once",
   tryBarePath "require", tryBarePath "require_once"]

/-- All captures found by the twelve include recognizers over the whole
file content, each pattern's `re.findall` results appended in pattern
order. -/
def includeMatches (content : String) : List String :=
  includeTries.flatMap fun t => scanAll t content.data

/-- `os.path.basename`: the part after the last slash. -/
def basename (s : String) : String :=
  ((s.data.reverse.takeWhile fun c => c ≠ '/').reverse).asString

/-- `os.path.dirname`: the part before the last slash, with trailing
slashes stripped unless the head is all slashes. -/
def dirname (s : String) : String :=
  match s.data.reverse.dropWhile (fun c => c ≠ '/') with
  | [] => ""
  | headRev =>
    if headRev.all (· == '/') then headRev.reverse.asString
    else ((headRev.dropWhile (· == '/')).reverse).asString

/-- Literal-prefix test on character lists (Python `str.startswith`
with a literal argument). -/
def startsLitChars : List Char → List Char → Bool
  | [], _ => true
  | _ :: _, [] => false
  | p :: ps, c :: cs => if c = p then startsLitChars ps cs else false

/-- Python `s.startswith(pre)` for a literal `pre`. -/
def startsLit (s pre : String) : Bool :=
  startsLitChars pre.data s.data

/-- Whether a path ends with a slash. -/
def endsSlash (s : String) : Bool :=
  match s.data.reverse with
  | '/' :: _ => true
  | _ => false

/-- Python `split('/')` on a string. -/
def splitSlashChars : List Char → List Char → List String
  | [], acc => [acc.reverse.asString]
  | '/' :: r, acc => acc.reverse.asString :: splitSlashChars r []
  | c :: r, acc => splitSlashChars r (c :: acc)

/-- Python `path.split('/')`. -/
def splitSlash (s : String) : List String :=
  splitSlashChars s.data []

/-- `os.path.join` for a non-absolute second component. -/
def joinRel (base inc : String) : String :=
  if base = "" then inc
  else if endsSlash base then base ++ inc
  else base ++ "/" ++ inc

/-- Component loop of `posixpath.normpath` for relative paths. -/
def normComps : List String → List String → List String
  | [], acc => acc.reverse
  | c :: r, acc =>
    if c = "" ∨ c = "." then normComps r acc
    else if c = ".." then
      match acc with
      | [] => normComps r [".."]
      | top :: rest => if top = ".." then normComps r (".." :: top :: rest) else normComps r rest
    else normComps r (c :: acc)

/-- `os.path.normpath` for relative paths (the only paths the include
resolver normalizes: absolute literals bypass it). -/
def normpath (s : String) : String :=
  match normComps (splitSlash s) [] with
  | [] => "."
  | comps => String.intercalate "/" comps

/-- Path resolution policy of the include resolver: explicit relative
markers and plain relative paths resolve against the including file's
directory, absolute literals are used as-is. -/
def resolveIncluded (relPath included_file : String) : String :=
  if startsLit included_file "./" || startsLit included_file "../" then
    normpath (joinRel (dirname relPath) included_file)
  else if ¬ startsLit included_file "/" then
    normpath (joinRel (dirname relPath) included_file)
  else included_file

/-- The edge stored for one qualifying capture: the resolved path when
it exists on disk under the root (`fsExists` is the oracle for
`os.path.exists(os.path.join(src_dir, resolved))`), else the original
literal. -/
def includeEdge (fsExists : String → Bool) (relPath inc : String) : String :=
  if fsExists (resolveIncluded relPath inc) then resolveIncluded relPath inc else inc

/-- `find_include_dependencies`: walk all `.php` files, skip unreadable
ones, and for each capture whose stripped text is nonempty and does not
start with `$`, record one edge; files with no recorded edge get no
entry. -/
def find_include_dependencies (fsExists : String → Bool) (proj : List PFile) :
    List (String × List String) :=
  (phpFiles proj).filterMap fun f =>
    match f.content with
    | none => none
    | some content =>
      let edges := (includeMatches content).filterMap fun m =>
        let inc := pstrip m
        if inc ≠ "" ∧ ¬ startsLit inc "$" then some (includeEdge fsExists f.path inc)
        else none
      if edges.isEmpty then none else some (f.path, edges)

/-- A cross-file taint path record of the assembler. -/
structure TaintPath where
  source_file : String
  source_line : Int
  source_sources : List FileMatch
  sink_file : String
  sink_line : Nat
  sink_code : String
  connection_type : String
  include_chain : List String
deriving DecidableEq, Repr

/-- The three-way dependency-edge match of the assembler:
`args.file == dep or target_filename == dep or
target_filename == os.path.basename(dep)`. -/
def matchesTarget (targetFile dep : String) : Bool :=
  targetFile == dep || basename targetFile == dep || basename targetFile == basename dep

/-- The files whose include-edge list contains the target file (one
entry per including file: the inner loop breaks at the first matching
edge). -/
def files_including_target (includeDeps : List (String × List String)) (targetFile : String) :
    List String :=
  (includeDeps.filter fun e => e.2.any (matchesTarget targetFile)).map (·.1)

/-- The cross-file taint-path construction of `main` (step 8): one
TaintPath per (including file, sink) pair for every including file
present in the sparse project-wide sink mapping. -/
def cross_file_paths (targetFile : String) (targetLine : Int) (targetSources : List FileMatch)
    (includeDeps : List (String × List String)) (allSinks : List (String × List ProjMatch)) :
    List TaintPath :=
  (files_including_target includeDeps targetFile).flatMap fun f =>
    match lookupA allSinks f with
    | none => []
    | some sks => sks.map fun s =>
        ⟨targetFile, targetLine, targetSources, f, s.line, s.code,
         "include_dependency", [targetFile, f]⟩

/-- A call site of the project-wide call graph, tagged with its owning
file. -/
structure CallerSite where
  function : String
  line : Nat
  code : String
  caller_file : String
deriving DecidableEq, Repr

/-- The call-graph entry for one callee name: every call site across the
walk whose callee name equals it, in walk/extraction order
(`build_function_call_graph` followed by the dict lookup). -/
def call_graph_sites (proj : List PFile) (name : String) : List CallerSite :=
  (phpFiles proj).flatMap fun f =>
    match f.content with
    | none => []
    | some raw =>
      ((extract_function_calls (pyReadLines raw)).filter fun c => c.function == name).map
        fun c => ⟨c.function, c.line, c.code, f.path⟩

/-- A function-definition site of the project function index. -/
structure DefSite where
  file : String
  line : Nat
  code : String
deriving DecidableEq, Repr

/-- The definition sites registered for one name by
`find_function_definitions`, in walk/line order. -/
def function_definitions (proj : List PFile) (name : String) : List DefSite :=
  (phpFiles proj).flatMap fun f =>
    match f.content with
    | none => []
    | some raw =>
      (pyReadLines raw).enum.filterMap fun p =>
        match funcDefName p.2 with
        | some nm => if nm == name then some (⟨f.path, p.1 + 1, pstrip p.2⟩ : DefSite) else none
        | none => none

/-- The target-function descriptor embedded in every "called_from"
chain. -/
structure TargetFnInfo where
  name : String
  file : String
  start_line : Int
  end_line : Int
  sources : List FileMatch
  sinks : List FileMatch
deriving DecidableEq, Repr

/-- The two chain variants of the result: who calls the target function,
and what the target function calls (one record per definition of the
callee). -/
inductive FunctionChain where
  | called_from (target : TargetFnInfo) (file : String) (line : Nat) (code : String)
  | calls (caller_name caller_file : String) (call_line : Nat) (call_code : String)
      (callee_name callee_file : String) (definition_line : Nat) (definition_code : String)
deriving DecidableEq, Repr

/-- Step 9a of `main`: one "called_from" chain per call-graph entry of
the target function's name. -/
def called_from_chains (proj : List PFile) (targetFile funcName : String)
    (funcStart funcEnd : Int) (targetSources targetSinks : List FileMatch) :
    List FunctionChain :=
  (call_graph_sites proj funcName).map fun c =>
    .called_from ⟨funcName, targetFile, funcStart, funcEnd, targetSources, targetSinks⟩
      c.caller_file c.line c.code

/-- Step 9b of `main`: one "calls" chain per (call site in the target
file, definition of its callee). -/
def calls_chains (proj : List PFile) (targetFile funcName : String)
    (targetLines : List String) : List FunctionChain :=
  (extract_function_calls targetLines).flatMap fun call =>
    (function_definitions proj call.function).map fun d =>
      .calls funcName targetFile call.line call.code call.function d.file d.line d.code

/-- The summary block of the result document. -/
structure Summary where
  total_chains : Nat
  cross_paths : Nat
  project_sources : Nat
  project_sinks : Nat
  target_sources : Nat
  target_sinks : Nat
  joern_usages : Nat
deriving DecidableEq, Repr

/-- The structured result document `main` writes to the output file. -/
structure ResultDoc where
  target_file : String
  target_line : Int
  target_function : String
  target_start : Int
  target_end : Int
  joern_usages : List String
  function_chains : List FunctionChain
  cross_file_taint_paths : List TaintPath
  all_sources : List (String × List ProjMatch)
  all_sinks : List (String × List ProjMatch)
  include_dependencies : List (String × List String)
  sources_in_target : List FileMatch
  sinks_in_target : List FileMatch
  summary : Summary
deriving DecidableEq, Repr

/-- Environment of one run: the `re.search` oracle for the configured
patterns, the filesystem-existence oracle used by the include resolver,
and the outcome of the Joern phase. `joern = some (cpg, usages)` models
`detect_joern_dir` and `gen_cpg` succeeding (with `usages = []` also
covering `joern-slice` being absent, exiting non-zero, or raising);
`joern = none` models `detect_joern_dir` or `gen_cpg` raising, in which
case the local variable `cpg_file` of `main` is never assigned. -/
structure Env where
  search : String → String → Bool
  fsExists : String → Bool
  joern : Option (String × List String)

/-- Outcome of a run of `main`: aborted by target-resolution failure
(`sys.exit(1)`), or finished with the written result document together
with the error, if any, escaping from the cleanup step (line
`if os.path.exists(cpg_file)` reads a local that was never assigned when
the Joern phase failed, raising an UnboundLocalError after the document
has been written). -/
inductive RunOutcome where
  | aborted
  | finished (doc : ResultDoc) (cleanupError : Option String)
deriving DecidableEq, Repr

/-- Reading the target file: `none` when it is missing or unreadable
(both make `find_function_at_line` return the null triple and `main`
exit). -/
def lookupFile (proj : List PFile) (path : String) : Option String :=
  (proj.find? fun f => f.path == path).bind (·.content)

/-- The analysis pipeline of `main` on one target, from target
resolution to the written result document and the cleanup step. -/
def mainRun (env : Env) (proj : List PFile) (targetFile : String) (targetLine : Int)
    (sources sinks : List String) : RunOutcome :=
  match lookupFile proj targetFile with
  | none => .aborted
  | some raw =>
    let targetLines := pyReadLines raw
    let fr := find_function_at_line targetLines targetLine
    let cpgVar : Option String := (env.joern.map (·.1))
    let joernUsages : List String := match env.joern with
      | some (_, us) => us
      | none => []
    let allSS := analyze_sources_sinks_in_project env.search proj sources sinks
    let ts := analyze_sources_sinks env.search targetLines sources sinks
    let includeDeps := find_include_dependencies env.fsExists proj
    let crossPaths := cross_file_paths targetFile targetLine ts.1 includeDeps allSS.2
    let chains :=
      called_from_chains proj targetFile fr.1 fr.2.1 fr.2.2 ts.1 ts.2
        ++ calls_chains proj targetFile fr.1 targetLines
    let doc : ResultDoc :=
      ⟨targetFile, targetLine, fr.1, fr.2.1, fr.2.2, joernUsages, chains, crossPaths,
       allSS.1, allSS.2, includeDeps, ts.1, ts.2,
       ⟨chains.length, crossPaths.length,
        ((allSS.1.map fun e => e.2.length).sum), ((allSS.2.map fun e => e.2.length).sum),
        ts.1.length, ts.2.length, joernUsages.length⟩⟩
    .finished doc
      (match cpgVar with
       | none => some "UnboundLocalError: local variable cpg_file referenced before assignment"
       | some _ => none)

/-! ### Properties of the function locator -/

/-- Line numbers of recognized definitions are at least the starting
line number of the scan. -/
theorem defsFrom_pos_ge : ∀ (rest : List String) (i : Int) (d : Int × String),
    d ∈ defsFrom rest i → i ≤ d.1 := by
  intro rest
  induction rest with
  | nil => intro i d h; simp [defsFrom] at h
  | cons l r ih =>
    intro i d h
    cases hf : funcDefName l with
    | some nm =>
      simp only [defsFrom, hf, List.mem_cons] at h
      rcases h with h | h
      · simp [h]
      · have := ih (i + 1) d h; omega
    | none =>
      simp only [defsFrom, hf] at h
      have := ih (i + 1) d h; omega

/-- Recognized definitions appear in strictly increasing line order. -/
theorem defsFrom_sorted : ∀ (rest : List String) (i : Int),
    (defsFrom rest i).Pairwise (fun a b => a.1 < b.1) := by
  intro rest
  induction rest with
  | nil => intro i; simp [defsFrom]
  | cons l r ih =>
    intro i
    cases hf : funcDefName l with
    | some nm =>
      simp only [defsFrom, hf]
      refine List.Pairwise.cons ?_ (ih (i + 1))
      intro d hd
      have := defsFrom_pos_ge r (i + 1) d hd
      omega
    | none => simpa only [defsFrom, hf] using ih (i + 1)

/-- The end line of a function body: the line before the next
recognized definition, or the last line of the file. -/
def bodyEnd (post : List (Int × String)) (total : Int) : Int :=
  match post.head? with
  | some d => d.1 - 1
  | none => total

/-- If every remaining definition starts after the requested line and
the open span (when any) also starts after it, the loop falls through to
the global span. -/
theorem findFunGo_global (line total : Int) : ∀ (rest : List String) (i : Int)
    (cur : Option (String × Int)),
    (∀ d ∈ defsFrom rest i, line < d.1) →
    (∀ g σ, cur = some (g, σ) → line < σ) →
    findFunGo line total rest i cur = ("global", 1, total) := by
  intro rest
  induction rest with
  | nil =>
    intro i cur _ hcur
    cases cur with
    | none => simp [findFunGo]
    | some fs =>
      have := hcur fs.1 fs.2 rfl
      simp only [findFunGo]
      rw [if_neg]
      omega
  | cons l r ih =>
    intro i cur hdef hcur
    cases hf : funcDefName l with
    | some nm =>
      have hi : line < i := by
        have := hdef (i, nm) (by simp [defsFrom, hf])
        simpa using this
      have hrec : ∀ d ∈ defsFrom r (i + 1), line < d.1 := by
        intro d hd
        exact hdef d (by simp [defsFrom, hf, hd])
      cases cur with
      | none =>
        simp only [findFunGo, hf]
        refine ih (i + 1) (some (nm, i)) hrec ?_
        intro g σ hgs
        injection hgs with h1
        injection h1 with h2 h3
        omega
      | some fs =>
        obtain ⟨g, σ⟩ := fs
        have := hcur g σ rfl
        simp only [findFunGo, hf]
        rw [if_neg (by omega)]
        refine ih (i + 1) (some (nm, i)) hrec ?_
        intro g' σ' hgs
        injection hgs with h1
        injection h1 with h2 h3
        omega
    | none =>
      cases cur with
      | none =>
        simp only [findFunGo, hf]
        exact ih (i + 1) none (by simpa [defsFrom, hf] using hdef) (by simp)
      | some fs =>
        simp only [findFunGo, hf]
        exact ih (i + 1) (some fs) (by simpa [defsFrom, hf] using hdef) hcur

/-- Once the open span is the function containing the requested line,
the loop closes it at the next definition or at the end of the file. -/
theorem findFunGo_inside (line total : Int) (f : String) (s : Int) :
    ∀ (rest : List String) (i : Int),
    s ≤ line →
    line ≤ bodyEnd (defsFrom rest i) total →
    findFunGo line total rest i (some (f, s)) = (f, s, bodyEnd (defsFrom rest i) total) := by
  intro rest
  induction rest with
  | nil =>
    intro i hs hend
    simp only [defsFrom, bodyEnd, List.head?] at hend ⊢
    simp only [findFunGo]
    rw [if_pos ⟨hs, hend⟩]
  | cons l r ih =>
    intro i hs hend
    cases hf : funcDefName l with
    | some nm =>
      simp only [defsFrom, hf, bodyEnd, List.head?_cons] at hend ⊢
      simp only [findFunGo, hf]
      rw [if_pos ⟨hs, hend⟩]
    | none =>
      simp only [defsFrom, hf] at hend ⊢
      simp only [findFunGo, hf]
      exact ih (i + 1) hs hend

/-- Main loop lemma: when the definition list of the remaining lines
decomposes around the function that brackets the requested line, the
loop returns exactly that function with its body end. -/
theorem findFunGo_target (line total : Int) (s : Int) (name : String) :
    ∀ (rest : List String) (i : Int) (cur : Option (String × Int))
    (pre post : List (Int × String)),
    defsFrom rest i = pre ++ (s, name) :: post →
    s ≤ line →
    line ≤ bodyEnd post total →
    findFunGo line total rest i cur = (name, s, bodyEnd post total) := by
  intro rest
  induction rest with
  | nil =>
    intro i cur pre post hdec
    simp only [defsFrom] at hdec
    cases pre <;> simp at hdec
  | cons l r ih =>
    intro i cur pre post hdec hs hend
    cases hf : funcDefName l with
    | none =>
      simp only [defsFrom, hf] at hdec
      simp only [findFunGo, hf]
      exact ih (i + 1) cur pre post hdec hs hend
    | some nm =>
      simp only [defsFrom, hf] at hdec
      cases pre with
      | nil =>
        simp only [List.nil_append] at hdec
        obtain ⟨h1, hpost⟩ := List.cons_eq_cons.mp hdec
        have hsi : i = s := congrArg Prod.fst h1
        have hnm : nm = name := congrArg Prod.snd h1
        subst hsi
        subst hnm
        have hins := findFunGo_inside line total nm i r (i + 1) hs
          (by rw [hpost]; exact hend)
        rw [hpost] at hins
        cases cur with
        | none =>
          simp only [findFunGo, hf]
          exact hins
        | some fs =>
          obtain ⟨g, σ⟩ := fs
          simp only [findFunGo, hf]
          rw [if_neg (by omega)]
          exact hins
      | cons p pre' =>
        simp only [List.cons_append] at hdec
        obtain ⟨hp, h2⟩ := List.cons_eq_cons.mp hdec
        have hmem : (s, name) ∈ defsFrom r (i + 1) := by rw [h2]; simp
        have hpair := defsFrom_sorted (l :: r) i
        simp only [defsFrom, hf] at hpair
        have hlt : i < s := by
          have := (List.pairwise_cons.mp hpair).1 (s, name) hmem
          simpa using this
        cases cur with
        | none =>
          simp only [findFunGo, hf]
          exact ih (i + 1) (some (nm, i)) pre' post h2 hs hend
        | some fs =>
          obtain ⟨g, σ⟩ := fs
          simp only [findFunGo, hf]
          rw [if_neg (by omega)]
          exact ih (i + 1) (some (nm, i)) pre' post h2 hs hend

/-- Auxiliary: the head of a dropped list is the indexed element. -/
theorem head_drop_eq_get? {α : Type _} : ∀ (l : List α) (n : Nat), (l.drop n).head? = l.get? n
  | [], n => by cases n <;> simp
  | _ :: _, 0 => by simp
  | _ :: l, n + 1 => by simp [head_drop_eq_get? l n]

/-- Auxiliary: decompose a list around an indexed element. -/
theorem take_get_drop {α : Type _} : ∀ (l : List α) (n : Nat) (a : α),
    l.get? n = some a → l = l.take n ++ a :: l.drop (n + 1)
  | [], n, a => by simp
  | x :: l, 0, a => by intro h; simp at h; simp [h]
  | x :: l, n + 1, a => by
    intro h
    simp only [List.get?_cons_succ] at h
    simpa using take_get_drop l n a h

/-- C4: for every readable file and every line lying inside the body of
the `k`-th recognized function, `find_function_at_line` returns that
function's name and a span with start ≤ line ≤ end, where end is the
line immediately before the next recognized definition, or the file's
last line when the function is the last one recognized. -/
theorem claim_C4 (lines : List String) (line : Int) (k : Nat) (s : Int) (name : String)
    (hk : (defsOf lines).get? k = some (s, name))
    (hs : s ≤ line)
    (hend : line ≤ bodyEnd ((defsOf lines).drop (k + 1)) (lines.length : Int)) :
    find_function_at_line lines line =
      (name, s, bodyEnd ((defsOf lines).drop (k + 1)) (lines.length : Int)) ∧
    s ≤ line ∧ line ≤ bodyEnd ((defsOf lines).drop (k + 1)) (lines.length : Int) := by
  refine ⟨?_, hs, hend⟩
  exact findFunGo_target line (lines.length : Int) s name lines 1 none
    ((defsOf lines).take k) ((defsOf lines).drop (k + 1))
    (take_get_drop (defsOf lines) k (s, name) hk) hs hend

/-- Demonstration file for the C4 witness. -/
def c4lines : List String := ["function a() \x7b", "x;", "function b() \x7b", "y;"]

/-- Witness for C4: line 2 of the demonstration file lies in the body
of `a` (lines 1–2, closed by the definition of `b` on line 3). -/
theorem claim_C4_witness : find_function_at_line c4lines 2 = ("a", 1, 2) := by
  have h := claim_C4 c4lines 2 0 1 "a" (by decide) (by decide) (by decide)
  exact h.1

/-- C5: when the requested line precedes the first recognized function
definition, or no definitions exist at all, `find_function_at_line`
returns the synthetic global span covering the whole file. -/
theorem claim_C5 (lines : List String) (line : Int)
    (h : ∀ d, (defsOf lines).head? = some d → line < d.1) :
    find_function_at_line lines line = ("global", 1, (lines.length : Int)) := by
  have hall : ∀ d ∈ defsOf lines, line < d.1 := by
    cases hl : defsOf lines with
    | nil => simp
    | cons d0 t =>
      intro d hd
      have h0 := h d0 (by simp [hl])
      have hpair : List.Pairwise (fun a b => (a : Int × String).1 < b.1) (d0 :: t) := by
        rw [← hl]
        exact defsFrom_sorted lines 1
      rcases List.mem_cons.mp hd with rfl | hdt
      · exact h0
      · have := (List.pairwise_cons.mp hpair).1 d hdt
        omega
  exact findFunGo_global line _ lines 1 none hall (by simp)

/-- Demonstration file for the C5 witness. -/
def c5lines : List String := ["x;", "function a() \x7b", "y;"]

/-- Witness for C5: line 1 precedes the definition of `a` on line 2, so
the global span over the three lines is returned. -/
theorem claim_C5_witness : find_function_at_line c5lines 1 = ("global", 1, 3) := by
  refine claim_C5 c5lines 1 ?_
  intro d hd
  have he : (defsOf c5lines).head? = some ((2 : Int), "a") := by decide
  rw [he] at hd
  injection hd with h1
  rw [← h1]
  decide

/-- Every result of the locator loop is either the global fallback span
or a span bracketing the requested line. -/
theorem findFunGo_span (line total : Int) : ∀ (rest : List String) (i : Int)
    (cur : Option (String × Int)),
    findFunGo line total rest i cur = ("global", 1, total) ∨
    ((findFunGo line total rest i cur).2.1 ≤ line ∧
     line ≤ (findFunGo line total rest i cur).2.2) := by
  intro rest
  induction rest with
  | nil =>
    intro i cur
    cases cur with
    | none => left; simp [findFunGo]
    | some fs =>
      obtain ⟨f, s⟩ := fs
      by_cases h : s ≤ line ∧ line ≤ total
      · right
        simp only [findFunGo, if_pos h]
        exact ⟨h.1, h.2⟩
      · left
        simp only [findFunGo, if_neg h]
  | cons l r ih =>
    intro i cur
    cases hf : funcDefName l with
    | some nm =>
      cases cur with
      | none =>
        simp only [findFunGo, hf]
        exact ih (i + 1) (some (nm, i))
      | some fs =>
        obtain ⟨g, σ⟩ := fs
        by_cases h : σ ≤ line ∧ line ≤ i - 1
        · right
          simp only [findFunGo, hf, if_pos h]
          exact ⟨h.1, h.2⟩
        · simp only [findFunGo, hf, if_neg h]
          exact ih (i + 1) (some (nm, i))
    | none =>
      simp only [findFunGo, hf]
      exact ih (i + 1) cur

/-- C8 counterexample: on a file with zero lines the returned global
span is (1, 0), which violates start ≤ end. -/
theorem claim_C8_counterexample :
    find_function_at_line ([] : List String) 1 = ("global", 1, 0) ∧
    ¬ ((find_function_at_line ([] : List String) 1).2.1 ≤
        (find_function_at_line ([] : List String) 1).2.2) := by
  constructor
  · rfl
  · decide

/-- C8 amended: every returned span is either the global fallback
(1, number of lines) or brackets the requested line, and for every file
with at least one line the returned span satisfies start ≤ end; a
zero-line file is the single exception, where the global span is
(1, 0). -/
theorem claim_C8_amended (lines : List String) (line : Int) :
    (find_function_at_line lines line = ("global", 1, (lines.length : Int)) ∨
     ((find_function_at_line lines line).2.1 ≤ line ∧
      line ≤ (find_function_at_line lines line).2.2)) ∧
    (lines ≠ [] →
      (find_function_at_line lines line).2.1 ≤ (find_function_at_line lines line).2.2) := by
  have h := findFunGo_span line (lines.length : Int) lines 1 none
  refine ⟨h, fun hne => ?_⟩
  rcases h with h | h
  · have hpos : 0 < lines.length := List.length_pos.mpr hne
    show (find_function_at_line lines line).2.1 ≤ (find_function_at_line lines line).2.2
    rw [show find_function_at_line lines line = ("global", 1, (lines.length : Int)) from h]
    simp
    omega
  · exact le_trans h.1 h.2

/-- Witness for the amended C8 on a one-line file. -/
theorem claim_C8_amended_witness :
    (find_function_at_line ["x;"] 5).2.1 ≤ (find_function_at_line ["x;"] 5).2.2 :=
  (claim_C8_amended ["x;"] 5).2 (by simp)

/-! ### Properties of the source/sink scanner -/

/-- Records produced by lines strictly below the scanning offset do not
carry a smaller line number. -/
theorem scan_filter_line_nil (search : String → String → Bool) (pats : List String) :
    ∀ (lines : List String) (start m : Nat), m < start + 1 →
    ((List.enumFrom start lines).flatMap fun p =>
        (pats.filter fun pat => search pat p.2).map fun pat =>
          (⟨p.1 + 1, pstrip p.2, pat⟩ : FileMatch)).filter (fun r => r.line = m) = [] := by
  intro lines
  induction lines with
  | nil => intro start m _; simp
  | cons x rest ih =>
    intro start m hm
    simp only [List.enumFrom_cons, List.flatMap_cons, List.filter_append]
    rw [ih (start + 1) m (by omega)]
    rw [List.append_nil]
    rw [List.filter_eq_nil_iff.mpr]
    intro r hr
    simp only [List.mem_map] at hr
    obtain ⟨pat, _, hpat⟩ := hr
    subst hpat
    simp
    omega

/-- The records of the scanner carrying the line number of the `i`-th
line are exactly one record per pattern matching that line, in pattern
order. -/
theorem scan_filter_line (search : String → String → Bool) (pats : List String) :
    ∀ (lines : List String) (start i : Nat) (l : String), lines.get? i = some l →
    ((List.enumFrom start lines).flatMap fun p =>
        (pats.filter fun pat => search pat p.2).map fun pat =>
          (⟨p.1 + 1, pstrip p.2, pat⟩ : FileMatch)).filter (fun r => r.line = start + i + 1) =
      (pats.filter fun pat => search pat l).map fun pat =>
        (⟨start + i + 1, pstrip l, pat⟩ : FileMatch) := by
  intro lines
  induction lines with
  | nil => intro start i l h; simp at h
  | cons x rest ih =>
    intro start i l h
    simp only [List.enumFrom_cons, List.flatMap_cons, List.filter_append]
    cases i with
    | zero =>
      simp only [List.get?_cons_zero, Option.some.injEq] at h
      subst h
      rw [scan_filter_line_nil search pats rest (start + 1) (start + 0 + 1) (by omega)]
      rw [List.append_nil]
      rw [List.filter_eq_self.mpr]
      intro r hr
      simp only [List.mem_map] at hr
      obtain ⟨pat, _, hpat⟩ := hr
      subst hpat
      simp
    | succ k =>
      simp only [List.get?_cons_succ] at h
      have harith : start + (k + 1) + 1 = (start + 1) + k + 1 := by omega
      rw [harith, ih (start + 1) k l h]
      rw [List.filter_eq_nil_iff.mpr, List.nil_append]
      intro r hr
      simp only [List.mem_map] at hr
      obtain ⟨pat, _, hpat⟩ := hr
      subst hpat
      simp
      omega

/-- C6: every line is tested against every source and every sink
pattern independently: the `i`-th line contributes exactly one source
record per matching source pattern and one sink record per matching
sink pattern, and a line matching both a source pattern and a sink
pattern yields a record in both returned sequences. -/
theorem claim_C6 (search : String → String → Bool) (lines : List String)
    (sources sinks : List String) (i : Nat) (l : String)
    (hi : lines.get? i = some l) :
    (((analyze_sources_sinks search lines sources sinks).1.filter
        fun r => r.line = i + 1).length = (sources.filter fun p => search p l).length) ∧
    (((analyze_sources_sinks search lines sources sinks).2.filter
        fun r => r.line = i + 1).length = (sinks.filter fun p => search p l).length) ∧
    (∀ p ∈ sources, search p l →
      (⟨i + 1, pstrip l, p⟩ : FileMatch) ∈ (analyze_sources_sinks search lines sources sinks).1) ∧
    (∀ p ∈ sinks, search p l →
      (⟨i + 1, pstrip l, p⟩ : FileMatch) ∈ (analyze_sources_sinks search lines sources sinks).2) := by
  have hsrc := scan_filter_line search sources lines 0 i l hi
  have hsnk := scan_filter_line search sinks lines 0 i l hi
  simp only [Nat.zero_add] at hsrc hsnk
  have he : lines.enum = List.enumFrom 0 lines := rfl
  refine ⟨?_, ?_, ?_, ?_⟩
  · show (List.filter _ _).length = _
    rw [show (analyze_sources_sinks search lines sources sinks).1 =
      (List.enumFrom 0 lines).flatMap fun p =>
        (sources.filter fun pat => search pat p.2).map fun pat =>
          (⟨p.1 + 1, pstrip p.2, pat⟩ : FileMatch) from rfl]
    rw [hsrc, List.length_map]
  · show (List.filter _ _).length = _
    rw [show (analyze_sources_sinks search lines sources sinks).2 =
      (List.enumFrom 0 lines).flatMap fun p =>
        (sinks.filter fun pat => search pat p.2).map fun pat =>
          (⟨p.1 + 1, pstrip p.2, pat⟩ : FileMatch) from rfl]
    rw [hsnk, List.length_map]
  · intro p hp hsearch
    have hmem : (⟨i + 1, pstrip l, p⟩ : FileMatch) ∈
        (sources.filter fun pat => search pat l).map fun pat =>
          (⟨i + 1, pstrip l, pat⟩ : FileMatch) := by
      simp only [List.mem_map]
      exact ⟨p, List.mem_filter.mpr ⟨hp, hsearch⟩, rfl⟩
    rw [← hsrc] at hmem
    exact List.mem_of_mem_filter hmem
  · intro p hp hsearch
    have hmem : (⟨i + 1, pstrip l, p⟩ : FileMatch) ∈
        (sinks.filter fun pat => search pat l).map fun pat =>
          (⟨i + 1, pstrip l, pat⟩ : FileMatch) := by
      simp only [List.mem_map]
      exact ⟨p, List.mem_filter.mpr ⟨hp, hsearch⟩, rfl⟩
    rw [← hsnk] at hmem
    exact List.mem_of_mem_filter hmem

/-- Witness for C6: with string-equality as the pattern semantics, the
line `eval` matches the source pattern `eval` and the sink pattern
`eval`, and appears in both returned sequences. -/
theorem claim_C6_witness :
    (⟨1, "eval", "eval"⟩ : FileMatch) ∈
      (analyze_sources_sinks (fun p l => p == l) ["eval"] ["eval"] ["eval", "x"]).1 ∧
    (⟨1, "eval", "eval"⟩ : FileMatch) ∈
      (analyze_sources_sinks (fun p l => p == l) ["eval"] ["eval"] ["eval", "x"]).2 := by
  have h := claim_C6 (fun p l => p == l) ["eval"] ["eval"] ["eval", "x"] 0 "eval" rfl
  exact ⟨h.2.2.1 "eval" (by decide) (by decide), h.2.2.2 "eval" (by decide) (by decide)⟩

/-! ### Properties of the project-wide walk -/

/-- A file contributing nothing to a per-file walk can be removed from
the tree without changing the result. -/
theorem scan_skip {β : Type _} (F : PFile → Option β) (pre post : List PFile) (pf : PFile)
    (hF : F pf = none) :
    (phpFiles (pre ++ pf :: post)).filterMap F = (phpFiles (pre ++ post)).filterMap F := by
  simp only [phpFiles, List.filter_append, List.filter_cons, List.filterMap_append]
  by_cases h : endsPhp pf.path
  · simp [h, List.filterMap_cons, hF]
  · simp [h]

/-- When every file of the tree carrying a given path is unreadable,
the walk records no entry under that path. -/
theorem scan_absent {α : Type _} (F : PFile → Option (String × α))
    (hFnone : ∀ f : PFile, f.content = none → F f = none)
    (hFkey : ∀ (f : PFile) e, F f = some e → e.1 = f.path)
    (proj : List PFile) (key : String)
    (hall : ∀ q ∈ proj, q.path = key → q.content = none) :
    lookupA ((phpFiles proj).filterMap F) key = none := by
  unfold lookupA
  rw [List.find?_eq_none.mpr]
  · rfl
  · intro e he
    have := List.mem_filterMap.mp he
    obtain ⟨f, hf, hFf⟩ := this
    have hfp : f ∈ proj := List.mem_of_mem_filter hf
    have hkey := hFkey f e hFf
    by_cases hpk : f.path = key
    · have hcontent := hall f hfp hpk
      rw [hFnone f hcontent] at hFf
      exact absurd hFf (by simp)
    · simp only [beq_iff_eq]
      rw [hkey]
      simpa using hpk

/-- The per-file body of the project-wide source scan. -/
def sourceScanBody (search : String → String → Bool) (sources : List String) (f : PFile) :
    Option (String × List ProjMatch) :=
  match f.content with
  | none => none
  | some raw =>
    let fs := projMatchesOf search f.path (pyReadLines raw) sources
    if fs.isEmpty then none else some (f.path, fs)

/-- The project-wide scan is the walk of the per-file body over both
pattern sets. -/
theorem analyze_project_eq (search : String → String → Bool) (proj : List PFile)
    (sources sinks : List String) :
    analyze_sources_sinks_in_project search proj sources sinks =
      ((phpFiles proj).filterMap (sourceScanBody search sources),
       (phpFiles proj).filterMap (sourceScanBody search sinks)) := rfl

/-- C9: an unreadable file during the project-wide scan is skipped: the
walk over the remaining files is unchanged, the unreadable file's path
is absent from both sparse mappings (when no readable file shares its
path), and the scan is a total function of the tree. -/
theorem claim_C9 (search : String → String → Bool) (sources sinks : List String)
    (pre post : List PFile) (pf : PFile) (hun : pf.content = none)
    (hall : ∀ q ∈ pre ++ pf :: post, q.path = pf.path → q.content = none) :
    analyze_sources_sinks_in_project search (pre ++ pf :: post) sources sinks =
      analyze_sources_sinks_in_project search (pre ++ post) sources sinks ∧
    lookupA (analyze_sources_sinks_in_project search (pre ++ pf :: post) sources sinks).1
      pf.path = none ∧
    lookupA (analyze_sources_sinks_in_project search (pre ++ pf :: post) sources sinks).2
      pf.path = none := by
  have hbody : ∀ pats : List String, sourceScanBody search pats pf = none := by
    intro pats
    unfold sourceScanBody
    rw [hun]
  have hFnone : ∀ pats (f : PFile), f.content = none → sourceScanBody search pats f = none := by
    intro pats f hf
    unfold sourceScanBody
    rw [hf]
  have hFkey : ∀ pats (f : PFile) e, sourceScanBody search pats f = some e → e.1 = f.path := by
    intro pats f e hFf
    unfold sourceScanBody at hFf
    cases hc : f.content with
    | none => rw [hc] at hFf; exact absurd hFf (by simp)
    | some raw =>
      rw [hc] at hFf
      simp only [] at hFf
      by_cases hemp : (projMatchesOf search f.path (pyReadLines raw) pats).isEmpty
      · rw [if_pos hemp] at hFf; exact absurd hFf (by simp)
      · rw [if_neg hemp] at hFf
        have := Option.some.inj hFf
        rw [← this]
  refine ⟨?_, ?_, ?_⟩
  · rw [analyze_project_eq, analyze_project_eq]
    rw [scan_skip _ pre post pf (hbody sources), scan_skip _ pre post pf (hbody sinks)]
  · rw [analyze_project_eq]
    exact scan_absent _ (hFnone sources) (hFkey sources) _ pf.path hall
  · rw [analyze_project_eq]
    exact scan_absent _ (hFnone sinks) (hFkey sinks) _ pf.path hall

/-- Witness for C9 on a two-file tree whose second file is unreadable. -/
theorem claim_C9_witness :
    analyze_sources_sinks_in_project (fun p l => p == l) [⟨"a.php", some "x"⟩, ⟨"b.php", none⟩]
        ["s"] ["k"] =
      analyze_sources_sinks_in_project (fun p l => p == l) [⟨"a.php", some "x"⟩] ["s"] ["k"] ∧
    lookupA (analyze_sources_sinks_in_project (fun p l => p == l)
        [⟨"a.php", some "x"⟩, ⟨"b.php", none⟩] ["s"] ["k"]).1 "b.php" = none ∧
    lookupA (analyze_sources_sinks_in_project (fun p l => p == l)
        [⟨"a.php", some "x"⟩, ⟨"b.php", none⟩] ["s"] ["k"]).2 "b.php" = none := by
  have h := claim_C9 (fun p l => p == l) ["s"] ["k"] [⟨"a.php", some "x"⟩] []
    ⟨"b.php", none⟩ rfl (by intro q hq hp; fin_cases hq <;> simp_all)
  exact h

/-! ### Properties of the cross-file taint-path assembler -/

/-- A successful dict lookup returns a stored entry. -/
theorem lookupA_some {α : Type _} {m : List (String × α)} {k : String} {v : α}
    (h : lookupA m k = some v) : (k, v) ∈ m := by
  unfold lookupA at h
  obtain ⟨e, hfind, hev⟩ := Option.map_eq_some'.mp h
  have hmem := List.mem_of_find?_eq_some hfind
  have hpred := List.find?_some hfind
  obtain ⟨e1, e2⟩ := e
  simp only [beq_iff_eq] at hpred
  subst hpred
  rw [← hev]
  exact hmem

/-- Every entry of the sparse scan mapping has at least one match. -/
theorem scanBody_nonempty (search : String → String → Bool) (pats : List String)
    (proj : List PFile) :
    ∀ e ∈ (phpFiles proj).filterMap (sourceScanBody search pats), e.2 ≠ [] := by
  intro e he
  obtain ⟨file, _, hbody⟩ := List.mem_filterMap.mp he
  unfold sourceScanBody at hbody
  cases hc : file.content with
  | none => rw [hc] at hbody; exact absurd hbody (by simp)
  | some raw =>
    rw [hc] at hbody
    simp only [] at hbody
    by_cases hemp : (projMatchesOf search file.path (pyReadLines raw) pats).isEmpty
    · rw [if_pos hemp] at hbody; exact absurd hbody (by simp)
    · rw [if_neg hemp] at hbody
      have := (Option.some.inj hbody).symm
      subst this
      simp only [ne_eq]
      intro hnil
      rw [hnil] at hemp
      simp at hemp

/-- C1: over the taint-path construction of `main` with the sink map
produced by the project-wide scan — a TaintPath is emitted exactly for
every (including file, sink) pair where the including file has a
dependency edge matching the target (by exact path, bare filename, or
edge basename) and appears in the sparse sink mapping; presence in that
mapping is equivalent to having at least one sink match, one path is
emitted per pair with connection type `include_dependency` and include
chain [target, including file], and a file without sinks yields no
path. -/
theorem claim_C1 (search : String → String → Bool) (proj : List PFile)
    (sources sinks : List String) (targetFile : String) (targetLine : Int)
    (targetSources : List FileMatch) (includeDeps : List (String × List String)) :
    (∀ tp, tp ∈ cross_file_paths targetFile targetLine targetSources includeDeps
        (analyze_sources_sinks_in_project search proj sources sinks).2 ↔
      ∃ f deps sks s, (f, deps) ∈ includeDeps ∧ deps.any (matchesTarget targetFile) ∧
        lookupA (analyze_sources_sinks_in_project search proj sources sinks).2 f = some sks ∧
        s ∈ sks ∧
        tp = ⟨targetFile, targetLine, targetSources, f, s.line, s.code,
              "include_dependency", [targetFile, f]⟩) ∧
    (cross_file_paths targetFile targetLine targetSources includeDeps
        (analyze_sources_sinks_in_project search proj sources sinks).2).length =
      ((files_including_target includeDeps targetFile).map fun f =>
        ((lookupA (analyze_sources_sinks_in_project search proj sources sinks).2 f).getD
          []).length).sum ∧
    (∀ f sks,
      lookupA (analyze_sources_sinks_in_project search proj sources sinks).2 f = some sks →
      sks ≠ []) ∧
    (∀ f, lookupA (analyze_sources_sinks_in_project search proj sources sinks).2 f = none →
      ∀ tp ∈ cross_file_paths targetFile targetLine targetSources includeDeps
        (analyze_sources_sinks_in_project search proj sources sinks).2,
      tp.sink_file ≠ f) := by
  have hmem_incl : ∀ f, f ∈ files_including_target includeDeps targetFile ↔
      ∃ deps, (f, deps) ∈ includeDeps ∧ deps.any (matchesTarget targetFile) := by
    intro f
    unfold files_including_target
    constructor
    · intro h
      obtain ⟨e, he, hef⟩ := List.mem_map.mp h
      obtain ⟨e1, e2⟩ := e
      simp only [] at hef
      subst hef
      have hfe := List.mem_filter.mp he
      exact ⟨e2, hfe.1, hfe.2⟩
    · rintro ⟨deps, hmem, hany⟩
      exact List.mem_map.mpr ⟨(f, deps), List.mem_filter.mpr ⟨hmem, hany⟩, rfl⟩
  have hiff : ∀ tp, tp ∈ cross_file_paths targetFile targetLine targetSources includeDeps
        (analyze_sources_sinks_in_project search proj sources sinks).2 ↔
      ∃ f deps sks s, (f, deps) ∈ includeDeps ∧ deps.any (matchesTarget targetFile) ∧
        lookupA (analyze_sources_sinks_in_project search proj sources sinks).2 f = some sks ∧
        s ∈ sks ∧
        tp = ⟨targetFile, targetLine, targetSources, f, s.line, s.code,
              "include_dependency", [targetFile, f]⟩ := by
    intro tp
    unfold cross_file_paths
    rw [List.mem_flatMap]
    constructor
    · rintro ⟨f, hf, htp⟩
      obtain ⟨deps, hdeps, hany⟩ := (hmem_incl f).mp hf
      cases hlook : lookupA (analyze_sources_sinks_in_project search proj sources sinks).2 f with
      | none => rw [hlook] at htp; simp at htp
      | some sks =>
        rw [hlook] at htp
        simp only [List.mem_map] at htp
        obtain ⟨s, hs, hmk⟩ := htp
        exact ⟨f, deps, sks, s, hdeps, hany, hlook, hs, hmk.symm⟩
    · rintro ⟨f, deps, sks, s, hdeps, hany, hlook, hs, htp⟩
      refine ⟨f, (hmem_incl f).mpr ⟨deps, hdeps, hany⟩, ?_⟩
      rw [hlook]
      simp only [List.mem_map]
      exact ⟨s, hs, htp.symm⟩
  refine ⟨hiff, ?_, ?_, ?_⟩
  · unfold cross_file_paths
    rw [List.length_flatMap]
    congr 1
    apply List.map_congr_left
    intro f _
    cases hlook : lookupA (analyze_sources_sinks_in_project search proj sources sinks).2 f with
    | none => simp [hlook]
    | some sks => simp [hlook]
  · intro f sks hlook
    exact scanBody_nonempty search sinks proj (f, sks) (lookupA_some hlook)
  · intro f hnone tp htp
    obtain ⟨f', _, sks, s, _, _, hlook, _, htp'⟩ := (hiff tp).mp htp
    subst htp'
    intro hcontra
    simp only [] at hcontra
    rw [hcontra] at hlook
    rw [hnone] at hlook
    exact absurd hlook (by simp)

/-- Demonstration project for the C1 witness: `b.php` is readable, has
one sink match, and one include edge naming the target `a.php`. -/
def c1proj : List PFile := [⟨"b.php", some "exec($cmd);"⟩]

/-- Witness for C1: on the demonstration project exactly one TaintPath
is emitted for the pair (`b.php`, its single sink). -/
theorem claim_C1_witness :
    (cross_file_paths "a.php" 6 [] [("b.php", ["a.php"])]
      (analyze_sources_sinks_in_project (fun p l => p == l) c1proj [] ["exec($cmd);"]).2).length
      = 1 := by
  have h := (claim_C1 (fun p l => p == l) c1proj [] ["exec($cmd);"] "a.php" 6 []
    [("b.php", ["a.php"])]).2.1
  rw [h]
  decide

/-! ### The call-chain scenario and the Joern failure path -/

/-- Scenario project for C2: `foo` is defined once, in `a.php` at line
5, and `c.php` calls `foo()` at line 20. -/
def c2aphp : PFile := ⟨"a.php", some "<?php\n\n\n\nfunction foo() \x7b\n  return 1;\n\x7d\n"⟩

/-- The calling file of the C2 scenario: 19 filler lines, then the call
`foo();` on line 20. -/
def c2cphp : PFile :=
  ⟨"c.php", some "<?php\n\n\n\n\n\n\n\n\n\n\n\n\n\n\n\n\n\n\nfoo();\n"⟩

/-- The two-file tree of the C2 scenario. -/
def c2proj : List PFile := [c2aphp, c2cphp]

/-- C2 counterexample: targeting line 6 (inside `foo`, whose span is
lines 5–7), the run emits TWO "called_from" chains, not one: the
free-call pattern also matches `foo(` inside the definition header
`function foo() {` of `a.php` line 5, which therefore enters the call
graph as a call site of `foo`. -/
theorem claim_C2_counterexample :
    find_function_at_line (pyReadLines "<?php\n\n\n\nfunction foo() \x7b\n  return 1;\n\x7d\n") 6 =
      ("foo", 5, 7) ∧
    (called_from_chains c2proj "a.php" "foo" 5 7 [] []).length = 2 ∧
    ¬ ((called_from_chains c2proj "a.php" "foo" 5 7 [] []).length = 1) ∧
    (called_from_chains c2proj "a.php" "foo" 5 7 [] []).head? =
      some (.called_from ⟨"foo", "a.php", 5, 7, [], []⟩ "a.php" 5 "function foo() \x7b") := by
  refine ⟨rfl, ?_, ?_, rfl⟩ <;> decide

/-- C2 amended: one "called_from" chain is emitted per call-graph
CallSite whose callee name equals the target function's name, and the
definition line itself is such a call site; in the scenario the run
emits exactly the two chains from `a.php` line 5 (the definition
header) and `c.php` line 20, in walk order. -/
theorem claim_C2_amended :
    (∀ (proj : List PFile) (tf fn : String) (fs fe : Int) (ts tk : List FileMatch),
      (called_from_chains proj tf fn fs fe ts tk).length =
        (call_graph_sites proj fn).length) ∧
    called_from_chains c2proj "a.php" "foo" 5 7 [] [] =
      [.called_from ⟨"foo", "a.php", 5, 7, [], []⟩ "a.php" 5 "function foo() \x7b",
       .called_from ⟨"foo", "a.php", 5, 7, [], []⟩ "c.php" 20 "foo();"] := by
  constructor
  · intro proj tf fn fs fe ts tk
    unfold called_from_chains
    rw [List.length_map]
  · rfl

/-- Project and environment for the C3 Joern-failure run: the Joern
phase fails (`detect_joern_dir` raises), so `cpg_file` is never
assigned. -/
def c3proj : List PFile := [⟨"t.php", some "x;\n"⟩]

/-- Environment with a failing Joern phase. -/
def c3env : Env := ⟨fun _ _ => false, fun _ => false, none⟩

/-- C3: when the Joern phase fails, the failure is caught, the run
proceeds with `joern_usages = []` and the result document is written —
but the cleanup step then reads the never-assigned local `cpg_file`, so
an UnboundLocalError escapes after the document is produced,
contradicting the claim that no exception escapes. -/
theorem claim_C3 :
    ∃ doc, mainRun c3env c3proj "t.php" 1 [] [] =
      .finished doc
        (some "UnboundLocalError: local variable cpg_file referenced before assignment") ∧
      doc.joern_usages = [] := by
  exact ⟨_, rfl, rfl⟩

/-! ### Properties of the include resolver -/

/-- The per-file body of the include-dependency walk. -/
def includeBody (fsExists : String → Bool) (f : PFile) : Option (String × List String) :=
  match f.content with
  | none => none
  | some content =>
    let edges := (includeMatches content).filterMap fun m =>
      let inc := pstrip m
      if inc ≠ "" ∧ ¬ startsLit inc "$" then some (includeEdge fsExists f.path inc)
      else none
    if edges.isEmpty then none else some (f.path, edges)

/-- The include walk is the per-file body over the tree. -/
theorem find_include_eq (fsExists : String → Bool) (proj : List PFile) :
    find_include_dependencies fsExists proj = (phpFiles proj).filterMap (includeBody fsExists) :=
  rfl

/-- The captures that survive the strip/`$` screening, i.e. the
directives for which an edge is recorded. -/
def qualifyingIncludes (content : String) : List String :=
  (includeMatches content).filterMap fun m =>
    let inc := pstrip m
    if inc ≠ "" ∧ ¬ startsLit inc "$" then some inc else none

/-- The recorded edges are exactly the qualifying captures, resolved. -/
theorem includeBody_edges (fsExists : String → Bool) (path content : String) :
    ((includeMatches content).filterMap fun m =>
      if pstrip m ≠ "" ∧ ¬ startsLit (pstrip m) "$" then
        some (includeEdge fsExists path (pstrip m))
      else none) =
    (qualifyingIncludes content).map (includeEdge fsExists path) := by
  unfold qualifyingIncludes
  rw [List.map_filterMap]
  apply List.filterMap_congr
  intro m _
  by_cases h : pstrip m ≠ "" ∧ ¬ startsLit (pstrip m) "$"
  · rw [if_pos h, if_pos h]; rfl
  · rw [if_neg h, if_neg h]; rfl

/-- Walk lookup: under a key-producing per-file body, looking up the
path of a visited file whose path is unique in the tree returns exactly
that file's body result. -/
theorem lookup_walk {α : Type _} (F : PFile → Option (String × α))
    (hFkey : ∀ (g : PFile) e, F g = some e → e.1 = g.path) :
    ∀ (proj : List PFile) (f : PFile), f ∈ proj → endsPhp f.path = true →
    (∀ q ∈ proj, q.path = f.path → q = f) →
    lookupA ((phpFiles proj).filterMap F) f.path = (F f).map (·.2) := by
  intro proj
  induction proj with
  | nil => intro f hmem; simp at hmem
  | cons q rest ih =>
    intro f hmem hphp huniq
    by_cases hqf : q = f
    · subst hqf
      simp only [phpFiles, List.filter_cons, hphp, if_pos]
      rw [List.filterMap_cons]
      cases hFq : F q with
      | some e =>
        have hkey := hFkey q e hFq
        unfold lookupA
        rw [List.find?_cons_of_pos _ (by simp [hkey])]
      | none =>
        simp only []
        have hn : ∀ e ∈ (List.filter (fun g => endsPhp g.path) rest).filterMap F,
            ¬ ((fun e => e.1 == q.path) e = true) := by
          intro e he
          obtain ⟨g, hg, hFg⟩ := List.mem_filterMap.mp he
          have hgrest : g ∈ rest := List.mem_of_mem_filter hg
          have hkey := hFkey g e hFg
          by_cases hpath : g.path = q.path
          · have hgq : g = q := huniq g (List.mem_cons_of_mem q hgrest) hpath
            rw [hgq, hFq] at hFg
            exact absurd hFg (by simp)
          · simp only [beq_iff_eq, hkey]
            simpa using hpath
        unfold lookupA
        rw [List.find?_eq_none.mpr hn]
    · have hfrest : f ∈ rest := by
        rcases List.mem_cons.mp hmem with h | h
        · exact absurd h.symm hqf
        · exact h
      have hqpath : q.path ≠ f.path := fun h => hqf (huniq q (List.mem_cons_self q rest) h)
      have hih := ih f hfrest hphp
        (fun g hg hp => huniq g (List.mem_cons_of_mem q hg) hp)
      simp only [phpFiles, List.filter_cons] at hih ⊢
      by_cases hq : endsPhp q.path
      · rw [if_pos (by simp [hq])]
        rw [List.filterMap_cons]
        cases hFq : F q with
        | none => exact hih
        | some e =>
          have hkey := hFkey q e hFq
          unfold lookupA at hih ⊢
          rw [List.find?_cons_of_neg]
          · exact hih
          · simp [hkey, hqpath]
      · rw [if_neg (by simp [hq])]
        exact hih

/-- Lists and their images have the same emptiness. -/
theorem isEmpty_map {α β : Type _} (h : α → β) (l : List α) :
    (l.map h).isEmpty = l.isEmpty := by
  cases l <;> simp

/-- C7 amended: a file with zero recognized inclusion directives gets no
dependency entry; every qualifying directive — one whose captured
literal is nonempty after stripping and does not start with `$` —
produces exactly one edge, storing the resolved path when it exists
under the root and the original literal otherwise; captures screened
out by the strip/`$` test produce no edge. -/
theorem claim_C7_amended (fsExists : String → Bool) (proj : List PFile) (f : PFile)
    (raw : String) (hmem : f ∈ proj) (hr : f.content = some raw)
    (hphp : endsPhp f.path = true)
    (huniq : ∀ q ∈ proj, q.path = f.path → q = f) :
    lookupA (find_include_dependencies fsExists proj) f.path =
      (if (qualifyingIncludes raw).isEmpty then none
       else some ((qualifyingIncludes raw).map (includeEdge fsExists f.path))) ∧
    (includeMatches raw = [] →
      lookupA (find_include_dependencies fsExists proj) f.path = none) ∧
    ((qualifyingIncludes raw).map (includeEdge fsExists f.path)).length =
      (qualifyingIncludes raw).length ∧
    (∀ inc ∈ qualifyingIncludes raw,
      includeEdge fsExists f.path inc =
        if fsExists (resolveIncluded f.path inc) then resolveIncluded f.path inc else inc) := by
  have hbody : includeBody fsExists f =
      (if (qualifyingIncludes raw).isEmpty then none
       else some (f.path, (qualifyingIncludes raw).map (includeEdge fsExists f.path))) := by
    unfold includeBody
    rw [hr]
    simp only []
    rw [show ((includeMatches raw).filterMap fun m =>
        if pstrip m ≠ "" ∧ ¬ startsLit (pstrip m) "$" then
          some (includeEdge fsExists f.path (pstrip m))
        else none) = (qualifyingIncludes raw).map (includeEdge fsExists f.path) from
      includeBody_edges fsExists f.path raw]
    rw [isEmpty_map]
  have hkey : ∀ (g : PFile) e, includeBody fsExists g = some e → e.1 = g.path := by
    intro g e hFg
    unfold includeBody at hFg
    cases hc : g.content with
    | none => rw [hc] at hFg; exact absurd hFg (by simp)
    | some content =>
      rw [hc] at hFg
      simp only [] at hFg
      by_cases hemp : ((includeMatches content).filterMap fun m =>
          if pstrip m ≠ "" ∧ ¬ startsLit (pstrip m) "$" then
            some (includeEdge fsExists g.path (pstrip m))
          else none).isEmpty
      · rw [if_pos hemp] at hFg; exact absurd hFg (by simp)
      · rw [if_neg hemp] at hFg
        rw [← Option.some.inj hFg]
  have hlook := lookup_walk (includeBody fsExists) hkey proj f hmem hphp huniq
  rw [find_include_eq, hlook, hbody]
  refine ⟨?_, ?_, by simp, fun inc _ => rfl⟩
  · by_cases hemp : (qualifyingIncludes raw).isEmpty
    · rw [if_pos hemp, if_pos hemp]; rfl
    · rw [if_neg hemp, if_neg hemp]; rfl
  · intro hmz
    have hq : qualifyingIncludes raw = [] := by
      unfold qualifyingIncludes
      rw [hmz]
      rfl
    rw [hq]
    rfl

/-- A file whose single inclusion directive carries a quoted literal
starting with `$`. -/
def c7file : PFile := ⟨"b.php", some "include \x27$a.php\x27;"⟩

/-- C7 counterexample: `include '$a.php';` is one literal inclusion
directive — the quoted-path recognizer captures `$a.php` — yet the
resolver records zero edges for the file (the capture is screened out
by the `$` test), so the file gets no dependency entry at all,
regardless of what exists on disk. -/
theorem claim_C7_counterexample :
    includeMatches "include \x27$a.php\x27;" = ["$a.php"] ∧
    find_include_dependencies (fun _ => false) [c7file] = [] ∧
    find_include_dependencies (fun _ => true) [c7file] = [] := by
  refine ⟨rfl, ?_, ?_⟩ <;> decide

/-- Demonstration file for the C7 witness: one qualifying directive. -/
def c7wfile : PFile := ⟨"b.php", some "include \x27lib/a.php\x27;"⟩

/-- Witness for the amended C7: the single qualifying directive of the
demonstration file produces exactly one edge, the literal itself since
the resolved path does not exist. -/
theorem claim_C7_amended_witness :
    lookupA (find_include_dependencies (fun _ => false) [c7wfile]) "b.php" =
      some ["lib/a.php"] := by
  have h := (claim_C7_amended (fun _ => false) [c7wfile] c7wfile "include \x27lib/a.php\x27;"
    (by simp) rfl rfl (by intro q hq _; simpa using hq)).1
  rw [show c7wfile.path = "b.php" from rfl] at h
  rw [h]
  decide

/-! ### Properties of the call extractor -/

/-- An identifier start character is also a continuation character. -/
theorem start_imp_cont {c : Char} (h : isIdentStart c = true) : isIdentCont c = true := by
  simp only [isIdentStart, Bool.or_eq_true] at h
  simp only [isIdentCont, Bool.or_eq_true]
  tauto

/-- A whitespace character is not an identifier character. -/
theorem spc_not_cont {c : Char} (h : isSpc c = true) : isIdentCont c = false := by
  simp only [isSpc, Bool.or_eq_true, beq_iff_eq] at h
  rcases h with ((((h | h) | h) | h) | h) | h <;> subst h <;> decide

/-- Append distributes over `dropWhile` when the left part leaves a
residue. -/
theorem dropWhile_append_ne {α : Type _} (p : α → Bool) :
    ∀ (l₁ l₂ : List α), l₁.dropWhile p ≠ [] →
    (l₁ ++ l₂).dropWhile p = l₁.dropWhile p ++ l₂ := by
  intro l₁
  induction l₁ with
  | nil => intro l₂ h; simp at h
  | cons a t ih =>
    intro l₂ h
    by_cases hp : p a
    · simp only [List.cons_append, List.dropWhile_cons_of_pos hp] at h ⊢
      exact ih l₂ h
    · simp only [List.cons_append, List.dropWhile_cons_of_neg hp]

/-- `dropWhile` over an all-satisfying prefix skips it. -/
theorem dropWhile_append_all {α : Type _} (p : α → Bool) :
    ∀ (l₁ l₂ : List α), (∀ x ∈ l₁, p x = true) →
    (l₁ ++ l₂).dropWhile p = l₂.dropWhile p := by
  intro l₁
  induction l₁ with
  | nil => intro l₂ _; simp
  | cons a t ih =>
    intro l₂ h
    rw [List.cons_append, List.dropWhile_cons_of_pos (h a (by simp))]
    exact ih l₂ fun x hx => h x (by simp [hx])

/-- `takeWhile` over an all-satisfying prefix keeps it. -/
theorem takeWhile_append_all {α : Type _} (p : α → Bool) :
    ∀ (l₁ l₂ : List α), (∀ x ∈ l₁, p x = true) →
    (l₁ ++ l₂).takeWhile p = l₁ ++ l₂.takeWhile p := by
  intro l₁
  induction l₁ with
  | nil => intro l₂ _; simp
  | cons a t ih =>
    intro l₂ h
    rw [List.cons_append, List.takeWhile_cons_of_pos (h a (by simp))]
    rw [ih l₂ fun x hx => h x (by simp [hx]), List.cons_append]

/-- A list whose last element fails the predicate leaves a `dropWhile`
residue. -/
theorem dropWhile_ne_nil_of_getLast {α : Type _} (p : α → Bool) (l : List α) (c : α)
    (hl : l.getLast? = some c) (hc : p c = false) : l.dropWhile p ≠ [] := by
  intro h
  have hall := List.dropWhile_eq_nil_iff.mp h
  have hcl : c ∈ l := by
    cases l with
    | nil => simp at hl
    | cons a t =>
      have := List.getLast?_eq_getLast (a :: t) (by simp)
      rw [this] at hl
      have := Option.some.inj hl
      rw [← this]
      exact List.getLast_mem _
  have := hall c hcl
  rw [hc] at this
  exact absurd this (by simp)

/-- The last element survives appending on the left of a nonempty
list. -/
theorem getLast?_append_ne {α : Type _} (l₁ l₂ : List α) (h : l₂ ≠ []) :
    (l₁ ++ l₂).getLast? = l₂.getLast? := by
  rw [List.getLast?_append]
  cases hl : l₂.getLast? with
  | none =>
    cases l₂ with
    | nil => exact absurd rfl h
    | cons a t => rw [List.getLast?_eq_getLast (a :: t) (by simp)] at hl; simp at hl
  | some c => simp

/-- A nonempty `dropWhile` residue keeps the last element. -/
theorem getLast?_dropWhile {α : Type _} (p : α → Bool) (l : List α)
    (h : l.dropWhile p ≠ []) : (l.dropWhile p).getLast? = l.getLast? := by
  conv_rhs => rw [← List.takeWhile_append_dropWhile p l]
  rw [getLast?_append_ne _ _ h]

/-- `dropWhile` never lengthens a list. -/
theorem length_dropWhile_le {α : Type _} (p : α → Bool) :
    ∀ (l : List α), (l.dropWhile p).length ≤ l.length := by
  intro l
  induction l with
  | nil => simp
  | cons a t ih =>
    by_cases hp : p a
    · rw [List.dropWhile_cons_of_pos hp]; simp; omega
    · rw [List.dropWhile_cons_of_neg hp]

/-- Unfolding of the free-call matcher on a nonempty input. -/
theorem identCall_cons (c : Char) (r : List Char) :
    identCall (c :: r) =
      if isIdentStart c = true then
        match (r.dropWhile isIdentCont).dropWhile isSpc with
        | d :: rest =>
          if d = '(' then some ((c :: r.takeWhile isIdentCont).asString, rest) else none
        | [] => none
      else none := rfl

/-- Soundness of the single free-call match: a successful match
decomposes its input into identifier, whitespace, opening parenthesis
and remainder. -/
theorem identCall_sound (l : List Char) (nm : String) (rest : List Char)
    (h : identCall l = some (nm, rest)) :
    ∃ c0 n' ws, l = (c0 :: n') ++ ws ++ '(' :: rest ∧
      isIdentStart c0 = true ∧ (∀ c ∈ n', isIdentCont c = true) ∧
      (∀ c ∈ ws, isSpc c = true) ∧ nm = (c0 :: n').asString := by
  cases l with
  | nil => simp [identCall] at h
  | cons c r =>
    rw [identCall_cons] at h
    by_cases hs : isIdentStart c
    · rw [if_pos hs] at h
      cases hm : (r.dropWhile isIdentCont).dropWhile isSpc with
      | nil => rw [hm] at h; exact absurd h (by simp)
      | cons d rest' =>
        rw [hm] at h
        simp only [] at h
        by_cases hd : d = '('
        · rw [if_pos hd] at h
          obtain ⟨hnm, hrest⟩ := Prod.mk.injEq .. ▸ Option.some.inj h
          refine ⟨c, r.takeWhile isIdentCont, (r.dropWhile isIdentCont).takeWhile isSpc,
            ?_, hs, ?_, ?_, hnm.symm⟩
          · have h1 : r = r.takeWhile isIdentCont ++ r.dropWhile isIdentCont :=
              (List.takeWhile_append_dropWhile _ _).symm
            have h2 : r.dropWhile isIdentCont =
                (r.dropWhile isIdentCont).takeWhile isSpc ++
                  ((r.dropWhile isIdentCont).dropWhile isSpc) :=
              (List.takeWhile_append_dropWhile _ _).symm
            rw [hm, hd, hrest] at h2
            conv_lhs => rw [h1]
            conv_lhs => rw [h2]
            simp
          · intro x hx; exact List.mem_takeWhile_imp hx
          · intro x hx; exact List.mem_takeWhile_imp hx
        · rw [if_neg hd] at h; exact absurd h (by simp)
    · rw [if_neg hs] at h; exact absurd h (by simp)

/-- Completeness of the single free-call match on a well-shaped
input. -/
theorem identCall_complete (c0 : Char) (n' ws v : List Char)
    (hc0 : isIdentStart c0 = true) (hn' : ∀ c ∈ n', isIdentCont c = true)
    (hws : ∀ c ∈ ws, isSpc c = true) :
    identCall ((c0 :: n') ++ ws ++ '(' :: v) = some ((c0 :: n').asString, v) := by
  have hl : (c0 :: n') ++ ws ++ '(' :: v = c0 :: (n' ++ (ws ++ '(' :: v)) := by simp
  rw [hl, identCall_cons, if_pos hc0]
  have hX : (ws ++ '(' :: v).dropWhile isIdentCont = ws ++ '(' :: v := by
    cases ws with
    | nil =>
      simp only [List.nil_append]
      rw [List.dropWhile_cons_of_neg (by decide)]
    | cons w ws' =>
      rw [List.cons_append, List.dropWhile_cons_of_neg
        (by simp [spc_not_cont (hws w (by simp))])]
  have hdrop1 : (n' ++ (ws ++ '(' :: v)).dropWhile isIdentCont = ws ++ '(' :: v := by
    rw [dropWhile_append_all _ _ _ hn', hX]
  have hdrop2 : (ws ++ '(' :: v).dropWhile isSpc = '(' :: v := by
    rw [dropWhile_append_all _ _ _ hws, List.dropWhile_cons_of_neg (by decide)]
  have htake : (n' ++ (ws ++ '(' :: v)).takeWhile isIdentCont = n' := by
    rw [takeWhile_append_all _ _ _ hn']
    cases ws with
    | nil =>
      simp only [List.nil_append]
      rw [List.takeWhile_cons_of_neg (by decide)]
      simp
    | cons w ws' =>
      rw [List.cons_append, List.takeWhile_cons_of_neg
        (by simp [spc_not_cont (hws w (by simp))])]
      simp
  rw [hdrop1, hdrop2, htake]
  simp

/-- Key shift lemma: when the free-call matcher succeeds on `u ++ Y`
while the separator block `u` ends in a character that is neither an
identifier character nor whitespace, the whole match stays inside `u`:
the remainder still carries `Y` intact behind a strictly shorter
separator block with the same last character. -/
theorem identCall_shift (u Y : List Char) (nm0 : String) (rest0 : List Char)
    (h : identCall (u ++ Y) = some (nm0, rest0))
    (hne : u ≠ [])
    (hlast : ∀ c, u.getLast? = some c → isIdentCont c = false ∧ isSpc c = false) :
    ∃ u2, rest0 = u2 ++ Y ∧ u2.length < u.length ∧
      (∀ c, u2.getLast? = some c → isIdentCont c = false ∧ isSpc c = false) := by
  cases u with
  | nil => exact absurd rfl hne
  | cons a u' =>
    rw [List.cons_append] at h
    rw [identCall_cons] at h
    by_cases hs : isIdentStart a
    · rw [if_pos hs] at h
      obtain ⟨cl, hgl, hclc, hcls⟩ : ∃ cl, (a :: u').getLast? = some cl ∧
          isIdentCont cl = false ∧ isSpc cl = false := by
        cases hgl : (a :: u').getLast? with
        | none =>
          rw [List.getLast?_eq_getLast (a :: u') (by simp)] at hgl
          simp at hgl
        | some cl => exact ⟨cl, rfl, (hlast cl hgl).1, (hlast cl hgl).2⟩
      have hu'ne : u' ≠ [] := by
        intro h0
        subst h0
        simp only [List.getLast?_singleton, Option.some.injEq] at hgl
        subst hgl
        rw [start_imp_cont hs] at hclc
        exact absurd hclc (by simp)
      have hlastu' : u'.getLast? = some cl := by
        cases u' with
        | nil => exact absurd rfl hu'ne
        | cons b t => rw [← List.getLast?_cons_cons]; exact hgl
      have hu1ne : u'.dropWhile isIdentCont ≠ [] :=
        dropWhile_ne_nil_of_getLast _ u' cl hlastu' hclc
      have hlast1 : (u'.dropWhile isIdentCont).getLast? = some cl := by
        rw [getLast?_dropWhile _ _ hu1ne]; exact hlastu'
      have hu2ne : (u'.dropWhile isIdentCont).dropWhile isSpc ≠ [] :=
        dropWhile_ne_nil_of_getLast _ _ cl hlast1 hcls
      have hlast2 : ((u'.dropWhile isIdentCont).dropWhile isSpc).getLast? = some cl := by
        rw [getLast?_dropWhile _ _ hu2ne]; exact hlast1
      rw [dropWhile_append_ne _ _ _ hu1ne, dropWhile_append_ne _ _ _ hu2ne] at h
      cases hu2 : (u'.dropWhile isIdentCont).dropWhile isSpc with
      | nil => exact absurd hu2 hu2ne
      | cons d t2 =>
        rw [hu2, List.cons_append] at h
        simp only [] at h
        by_cases hd : d = '('
        · rw [if_pos hd] at h
          obtain ⟨_, hrest⟩ := Prod.mk.injEq .. ▸ Option.some.inj h
          refine ⟨t2, hrest.symm, ?_, ?_⟩
          · have l1 : (d :: t2).length ≤ u'.length := by
              rw [← hu2]
              calc ((u'.dropWhile isIdentCont).dropWhile isSpc).length
                  ≤ (u'.dropWhile isIdentCont).length := length_dropWhile_le _ _
                _ ≤ u'.length := length_dropWhile_le _ _
            simp only [List.length_cons] at l1 ⊢
            omega
          · intro c hc
            cases t2 with
            | nil => simp at hc
            | cons e t3 =>
              rw [hu2] at hlast2
              rw [List.getLast?_cons_cons] at hlast2
              rw [hc] at hlast2
              have := Option.some.inj hlast2
              rw [← this] at hclc hcls
              exact ⟨hclc, hcls⟩
        · rw [if_neg hd] at h; exact absurd h (by simp)
    · rw [if_neg hs] at h; exact absurd h (by simp)

/-- Scan step on a successful single match. -/
theorem scanGo_cons_some (try1 : List Char → Option (String × List Char)) (fuel : Nat)
    (c : Char) (r : List Char) (nm : String) (rest : List Char)
    (h : try1 (c :: r) = some (nm, rest)) :
    scanGo try1 (fuel + 1) (c :: r) = nm :: scanGo try1 fuel rest := by
  simp [scanGo, h]

/-- Scan step on a failed single match. -/
theorem scanGo_cons_none (try1 : List Char → Option (String × List Char)) (fuel : Nat)
    (c : Char) (r : List Char) (h : try1 (c :: r) = none) :
    scanGo try1 (fuel + 1) (c :: r) = scanGo try1 fuel r := by
  simp [scanGo, h]

/-- Completeness of the free-call scan: an identifier directly followed
(after optional whitespace) by an opening parenthesis and preceded by a
separator that is neither an identifier character nor whitespace is
always captured, wherever it sits in the line. -/
theorem scanGo_free_complete :
    ∀ (fuel : Nat) (u : List Char) (c0 : Char) (n' ws v : List Char),
    (u ++ c0 :: (n' ++ (ws ++ '(' :: v))).length ≤ fuel →
    (∀ c, u.getLast? = some c → isIdentCont c = false ∧ isSpc c = false) →
    isIdentStart c0 = true → (∀ c ∈ n', isIdentCont c = true) →
    (∀ c ∈ ws, isSpc c = true) →
    (c0 :: n').asString ∈ scanGo tryFree fuel (u ++ c0 :: (n' ++ (ws ++ '(' :: v))) := by
  intro fuel
  induction fuel with
  | zero =>
    intro u c0 n' ws v hlen _ _ _ _
    exfalso
    rw [List.length_append] at hlen
    simp at hlen
  | succ fl ih =>
    intro u c0 n' ws v hlen hu hc0 hn' hws
    have hic : identCall (c0 :: (n' ++ (ws ++ '(' :: v))) = some ((c0 :: n').asString, v) := by
      have h := identCall_complete c0 n' ws v hc0 hn' hws
      have heq : (c0 :: n') ++ ws ++ '(' :: v = c0 :: (n' ++ (ws ++ '(' :: v)) := by simp
      rw [heq] at h
      exact h
    cases u with
    | nil =>
      rw [List.nil_append]
      rw [scanGo_cons_some tryFree fl c0 _ _ _ hic]
      exact List.mem_cons_self _ _
    | cons a u' =>
      rw [List.cons_append]
      cases htry : tryFree (a :: (u' ++ c0 :: (n' ++ (ws ++ '(' :: v)))) with
      | none =>
        rw [scanGo_cons_none _ _ _ _ htry]
        refine ih u' c0 n' ws v ?_ ?_ hc0 hn' hws
        · rw [List.cons_append, List.length_cons] at hlen
          omega
        · intro c hc
          apply hu
          cases u' with
          | nil => simp at hc
          | cons b t => rw [List.getLast?_cons_cons]; exact hc
      | some pr =>
        obtain ⟨nm0, rest0⟩ := pr
        obtain ⟨u2, hrest0, hlen2, hu2⟩ :=
          identCall_shift (a :: u') (c0 :: (n' ++ (ws ++ '(' :: v))) nm0 rest0
            (by rw [List.cons_append]; exact htry) (by simp) hu
        rw [scanGo_cons_some _ _ _ _ _ _ htry]
        apply List.mem_cons_of_mem
        rw [hrest0]
        refine ih u2 c0 n' ws v ?_ hu2 hc0 hn' hws
        rw [List.cons_append, List.length_cons, List.length_append] at hlen
        rw [List.length_append]
        simp only [List.length_cons] at hlen2
        omega

/-- Soundness of the generic scan: every capture arises from a
successful single match on a suffix of the input. -/
theorem scanGo_sound (try1 : List Char → Option (String × List Char))
    (hsuf : ∀ l nm rest, try1 l = some (nm, rest) → ∃ u, l = u ++ rest) :
    ∀ (fuel : Nat) (l : List Char) (nm : String), nm ∈ scanGo try1 fuel l →
    ∃ u suffix rest, l = u ++ suffix ∧ try1 suffix = some (nm, rest) := by
  intro fuel
  induction fuel with
  | zero => intro l nm h; cases l <;> simp [scanGo] at h
  | succ fl ih =>
    intro l nm h
    cases l with
    | nil => simp [scanGo] at h
    | cons c r =>
      cases htry : try1 (c :: r) with
      | some pr =>
        obtain ⟨nm0, rest0⟩ := pr
        rw [scanGo_cons_some _ _ _ _ _ _ htry] at h
        rcases List.mem_cons.mp h with rfl | h2
        · exact ⟨[], c :: r, rest0, by simp, htry⟩
        · obtain ⟨u, suffix, rest, hdec, hts⟩ := ih rest0 nm h2
          obtain ⟨u0, hu0⟩ := hsuf (c :: r) nm0 rest0 htry
          refine ⟨u0 ++ u, suffix, rest, ?_, hts⟩
          rw [hu0, hdec, List.append_assoc]
      | none =>
        rw [scanGo_cons_none _ _ _ _ htry] at h
        obtain ⟨u, suffix, rest, hdec, hts⟩ := ih r nm h
        refine ⟨c :: u, suffix, rest, ?_, hts⟩
        rw [List.cons_append, hdec]

/-- A successful free-call match consumes a prefix. -/
theorem identCall_suffix (l : List Char) (nm : String) (rest : List Char)
    (h : identCall l = some (nm, rest)) : ∃ u, l = u ++ rest := by
  obtain ⟨c0, n', ws, hdec, _, _, _, _⟩ := identCall_sound l nm rest h
  refine ⟨(c0 :: n') ++ ws ++ ['('], ?_⟩
  rw [hdec]
  simp

/-- Inversion of the variable-call matcher. -/
theorem tryVar_sound (l : List Char) (nm : String) (rest : List Char)
    (h : tryVar l = some (nm, rest)) :
    ∃ r, l = '$' :: r ∧ identCall r = some (nm, rest) := by
  cases l with
  | nil => simp [tryVar] at h
  | cons c r =>
    simp only [tryVar] at h
    by_cases hc : c = '$'
    · rw [if_pos hc] at h; exact ⟨r, by rw [hc], h⟩
    · rw [if_neg hc] at h; exact absurd h (by simp)

/-- Inversion of the member-call matcher. -/
theorem tryMember_sound (l : List Char) (nm : String) (rest : List Char)
    (h : tryMember l = some (nm, rest)) :
    ∃ r, l = '-' :: '>' :: r ∧ identCall r = some (nm, rest) := by
  cases l with
  | nil => simp [tryMember] at h
  | cons c l' =>
    cases l' with
    | nil => simp [tryMember] at h
    | cons d r =>
      simp only [tryMember] at h
      by_cases hc : c = '-' ∧ d = '>'
      · rw [if_pos hc] at h; exact ⟨r, by rw [hc.1, hc.2], h⟩
      · rw [if_neg hc] at h; exact absurd h (by simp)

/-- Inversion of the static-call matcher. -/
theorem tryStatic_sound (l : List Char) (nm : String) (rest : List Char)
    (h : tryStatic l = some (nm, rest)) :
    ∃ r, l = ':' :: ':' :: r ∧ identCall r = some (nm, rest) := by
  cases l with
  | nil => simp [tryStatic] at h
  | cons c l' =>
    cases l' with
    | nil => simp [tryStatic] at h
    | cons d r =>
      simp only [tryStatic] at h
      by_cases hc : c = ':' ∧ d = ':'
      · rw [if_pos hc] at h; exact ⟨r, by rw [hc.1, hc.2], h⟩
      · rw [if_neg hc] at h; exact absurd h (by simp)

/-- A successful variable-call match consumes a prefix. -/
theorem tryVar_suffix : ∀ (l : List Char) (nm : String) (rest : List Char),
    tryVar l = some (nm, rest) → ∃ u, l = u ++ rest := by
  intro l nm rest ht
  obtain ⟨r, hl, hid⟩ := tryVar_sound l nm rest ht
  obtain ⟨u, hu⟩ := identCall_suffix r nm rest hid
  exact ⟨'$' :: u, by rw [hl, hu]; rfl⟩

/-- A successful member-call match consumes a prefix. -/
theorem tryMember_suffix : ∀ (l : List Char) (nm : String) (rest : List Char),
    tryMember l = some (nm, rest) → ∃ u, l = u ++ rest := by
  intro l nm rest ht
  obtain ⟨r, hl, hid⟩ := tryMember_sound l nm rest ht
  obtain ⟨u, hu⟩ := identCall_suffix r nm rest hid
  exact ⟨'-' :: '>' :: u, by rw [hl, hu]; rfl⟩

/-- A successful static-call match consumes a prefix. -/
theorem tryStatic_suffix : ∀ (l : List Char) (nm : String) (rest : List Char),
    tryStatic l = some (nm, rest) → ∃ u, l = u ++ rest := by
  intro l nm rest ht
  obtain ⟨r, hl, hid⟩ := tryStatic_sound l nm rest ht
  obtain ⟨u, hu⟩ := identCall_suffix r nm rest hid
  exact ⟨':' :: ':' :: u, by rw [hl, hu]; rfl⟩

/-- Whenever a free-call body sits behind a non-identifier,
non-whitespace separator block, the free-call scan captures it. -/
theorem freeScan_catch (l : List Char) (u mk r : List Char) (nm : String) (rest : List Char)
    (hl : l = u ++ (mk ++ r))
    (hmkne : mk ≠ [])
    (hmklast : ∀ c, mk.getLast? = some c → isIdentCont c = false ∧ isSpc c = false)
    (hid : identCall r = some (nm, rest)) :
    nm ∈ scanAll tryFree l := by
  obtain ⟨c0, n', ws, hdec2, hstart, hcont, hspc, hnm⟩ := identCall_sound r nm rest hid
  have hL : l = (u ++ mk) ++ c0 :: (n' ++ (ws ++ '(' :: rest)) := by
    rw [hl, hdec2]
    simp
  have hulast : ∀ c, (u ++ mk).getLast? = some c →
      isIdentCont c = false ∧ isSpc c = false := by
    intro c hc
    rw [getLast?_append_ne u mk hmkne] at hc
    exact hmklast c hc
  have hmem := scanGo_free_complete
    ((u ++ mk) ++ c0 :: (n' ++ (ws ++ '(' :: rest))).length
    (u ++ mk) c0 n' ws rest (le_refl _) hulast hstart hcont hspc
  rw [hnm]
  unfold scanAll
  rw [hL]
  exact hmem

/-- Every capture of the variable-call pattern is also a capture of the
free-call pattern on the same line. -/
theorem var_imp_free (l : List Char) (nm : String) (h : nm ∈ scanAll tryVar l) :
    nm ∈ scanAll tryFree l := by
  obtain ⟨u, suffix, rest, hdec, hts⟩ := scanGo_sound tryVar tryVar_suffix l.length l nm h
  obtain ⟨r, hsfx, hid⟩ := tryVar_sound suffix nm rest hts
  refine freeScan_catch l u ['$'] r nm rest (by rw [hdec, hsfx]; rfl) (by simp) ?_ hid
  intro c hc
  simp only [List.getLast?_singleton, Option.some.injEq] at hc
  subst hc
  decide

/-- Every capture of the member-call pattern is also a capture of the
free-call pattern on the same line. -/
theorem member_imp_free (l : List Char) (nm : String) (h : nm ∈ scanAll tryMember l) :
    nm ∈ scanAll tryFree l := by
  obtain ⟨u, suffix, rest, hdec, hts⟩ :=
    scanGo_sound tryMember tryMember_suffix l.length l nm h
  obtain ⟨r, hsfx, hid⟩ := tryMember_sound suffix nm rest hts
  refine freeScan_catch l u ['-', '>'] r nm rest (by rw [hdec, hsfx]; rfl) (by simp) ?_ hid
  intro c hc
  have : (['-', '>'] : List Char).getLast? = some '>' := rfl
  rw [this] at hc
  have hc' := Option.some.inj hc
  subst hc'
  decide

/-- Every capture of the static-call pattern is also a capture of the
free-call pattern on the same line. -/
theorem static_imp_free (l : List Char) (nm : String) (h : nm ∈ scanAll tryStatic l) :
    nm ∈ scanAll tryFree l := by
  obtain ⟨u, suffix, rest, hdec, hts⟩ :=
    scanGo_sound tryStatic tryStatic_suffix l.length l nm h
  obtain ⟨r, hsfx, hid⟩ := tryStatic_sound suffix nm rest hts
  refine freeScan_catch l u [':', ':'] r nm rest (by rw [hdec, hsfx]; rfl) (by simp) ?_ hid
  intro c hc
  have : (([':', ':'] : List Char)).getLast? = some ':' := rfl
  rw [this] at hc
  have hc' := Option.some.inj hc
  subst hc'
  decide

/-- The records one line contributes to `extract_function_calls`. -/
def lineCalls (ln : Nat) (l : String) : List CallSite :=
  callScanners.flatMap fun scan =>
    ((scanAll scan l.data).filter fun nm => ¬ denylist.contains nm).map
      fun nm => ⟨nm, ln, pstrip l⟩

/-- `extract_function_calls` is the concatenation of the per-line
contributions. -/
theorem extract_eq (lines : List String) :
    extract_function_calls lines =
      lines.enum.flatMap fun p => lineCalls (p.1 + 1) p.2 := rfl

/-- Every record of a line's contribution carries that line number. -/
theorem lineCalls_line (ln : Nat) (l : String) :
    ∀ r ∈ lineCalls ln l, r.line = ln := by
  intro r hr
  simp only [lineCalls, List.mem_flatMap, List.mem_map] at hr
  obtain ⟨scan, _, nm', _, hmk⟩ := hr
  rw [← hmk]

/-- Call records of lines past the scanning offset never carry a
smaller line number. -/
theorem calls_filter_line_nil :
    ∀ (lines : List String) (start m : Nat), m < start + 1 →
    ((List.enumFrom start lines).flatMap fun p => lineCalls (p.1 + 1) p.2).filter
      (fun c => c.line = m) = [] := by
  intro lines
  induction lines with
  | nil => intro start m _; simp
  | cons x rest ih =>
    intro start m hm
    simp only [List.enumFrom_cons, List.flatMap_cons, List.filter_append]
    rw [ih (start + 1) m (by omega), List.append_nil]
    rw [List.filter_eq_nil_iff.mpr]
    intro r hr
    have := lineCalls_line (start + 1) x r hr
    simp [this]
    omega

/-- The call records carrying the line number of the `i`-th line are
exactly that line's contribution. -/
theorem calls_filter_line :
    ∀ (lines : List String) (start i : Nat) (l : String), lines.get? i = some l →
    ((List.enumFrom start lines).flatMap fun p => lineCalls (p.1 + 1) p.2).filter
      (fun c => c.line = start + i + 1) = lineCalls (start + i + 1) l := by
  intro lines
  induction lines with
  | nil => intro start i l h; simp at h
  | cons x rest ih =>
    intro start i l h
    simp only [List.enumFrom_cons, List.flatMap_cons, List.filter_append]
    cases i with
    | zero =>
      simp only [List.get?_cons_zero, Option.some.injEq] at h
      subst h
      rw [calls_filter_line_nil rest (start + 1) (start + 0 + 1) (by omega), List.append_nil]
      rw [List.filter_eq_self.mpr]
      intro r hr
      have := lineCalls_line (start + 1) _ r hr
      simp [this]
    | succ k =>
      simp only [List.get?_cons_succ] at h
      have harith : start + (k + 1) + 1 = (start + 1) + k + 1 := by omega
      rw [harith, ih (start + 1) k l h]
      rw [List.filter_eq_nil_iff.mpr, List.nil_append]
      intro r hr
      have := lineCalls_line (start + 1) x r hr
      simp [this]
      omega

/-- C10: a line containing a variable-indirect, member or static call
whose name is not denylisted yields at least two records with that
callee name and line number — the free-call pattern also matches the
identifier immediately before the parenthesis, so the record appears
once for the shaped pattern and once for the free-call pattern. -/
theorem claim_C10 (lines : List String) (i : Nat) (l : String) (nm : String)
    (hl : lines.get? i = some l)
    (hdeny : nm ∉ denylist)
    (hshape : nm ∈ scanAll tryVar l.data ∨ nm ∈ scanAll tryMember l.data ∨
      nm ∈ scanAll tryStatic l.data) :
    nm ∈ scanAll tryFree l.data ∧
    2 ≤ (extract_function_calls lines).count (⟨nm, i + 1, pstrip l⟩ : CallSite) := by
  have hfree : nm ∈ scanAll tryFree l.data := by
    rcases hshape with h | h | h
    · exact var_imp_free _ _ h
    · exact member_imp_free _ _ h
    · exact static_imp_free _ _ h
  refine ⟨hfree, ?_⟩
  have hfl := calls_filter_line lines 0 i l hl
  simp only [Nat.zero_add] at hfl
  have hcnt := congrArg (List.count (⟨nm, i + 1, pstrip l⟩ : CallSite)) hfl
  rw [List.count_filter (by simp)] at hcnt
  have hcount_line : (extract_function_calls lines).count (⟨nm, i + 1, pstrip l⟩ : CallSite) =
      (lineCalls (i + 1) l).count ⟨nm, i + 1, pstrip l⟩ := by
    rw [extract_eq]
    rw [show lines.enum = List.enumFrom 0 lines from rfl]
    exact hcnt
  rw [hcount_line]
  have hexp : lineCalls (i + 1) l =
      (((scanAll tryFree l.data).filter fun nm' => ¬ denylist.contains nm').map
        fun nm' => (⟨nm', i + 1, pstrip l⟩ : CallSite)) ++
      ((((scanAll tryVar l.data).filter fun nm' => ¬ denylist.contains nm').map
        fun nm' => (⟨nm', i + 1, pstrip l⟩ : CallSite)) ++
      ((((scanAll tryMember l.data).filter fun nm' => ¬ denylist.contains nm').map
        fun nm' => (⟨nm', i + 1, pstrip l⟩ : CallSite)) ++
      ((((scanAll tryStatic l.data).filter fun nm' => ¬ denylist.contains nm').map
        fun nm' => (⟨nm', i + 1, pstrip l⟩ : CallSite)) ++ []))) := by
    simp [lineCalls, callScanners, List.flatMap_cons]
  rw [hexp]
  simp only [List.count_append]
  have hrec : ∀ s : List Char → Option (String × List Char), nm ∈ scanAll s l.data →
      1 ≤ ((((scanAll s l.data).filter fun nm' => ¬ denylist.contains nm').map
        fun nm' => (⟨nm', i + 1, pstrip l⟩ : CallSite)).count ⟨nm, i + 1, pstrip l⟩) := by
    intro s hs
    have hmem : (⟨nm, i + 1, pstrip l⟩ : CallSite) ∈
        (((scanAll s l.data).filter fun nm' => ¬ denylist.contains nm').map
          fun nm' => (⟨nm', i + 1, pstrip l⟩ : CallSite)) := by
      refine List.mem_map.mpr ⟨nm, List.mem_filter.mpr ⟨hs, ?_⟩, rfl⟩
      simpa using hdeny
    have := List.count_pos_iff.mpr hmem
    omega
  have h1 := hrec tryFree hfree
  rcases hshape with h | h | h
  · have h2 := hrec tryVar h
    omega
  · have h2 := hrec tryMember h
    omega
  · have h2 := hrec tryStatic h
    omega

/-- Witness for C10: the line `$foo();` yields the record (foo, line 1)
twice — once from the variable-call pattern and once from the free-call
pattern. -/
theorem claim_C10_witness :
    2 ≤ (extract_function_calls ["$foo();"]).count
      (⟨"foo", 1, "$foo();"⟩ : CallSite) := by
  have h := claim_C10 ["$foo();"] 0 "$foo();" "foo" rfl (by decide)
    (Or.inl (by decide))
  exact h.2

end TaintSlice
